import Mathlib

/-!
Verification of the `SegmentTree` component of the `coalesced` repository
(`semigroup/src/segment_tree.rs` and `semigroup_base/src/segment_tree/iter.rs`)
against its natural-language specification.

The Rust code is shallowly embedded: `Vec<T>` becomes `List M`, `usize` becomes
`Nat`, the `Monoid` trait bound becomes an explicit `MonoidOp M` record, and the
iterative loops become fuel-driven structural recursions (the fuel argument is
always chosen so that it cannot run out before the loop's real exit condition).
Rust panics (out-of-bounds `Vec` indexing, debug-profile integer underflow) are
modelled by checked variants of the operations returning `Option`, with `none`
standing for a panic.
-/

set_option maxHeartbeats 1000000

/-- Bundled binary operation with an identity element: the external `Monoid`
contract (`Semigroup::op` together with `Monoid::identity`) that
`SegmentTree<T>` consumes. -/
structure MonoidOp (M : Type) where
  op : M → M → M
  identity : M

/-- The algebraic laws the specification assumes of the supplied operation:
associativity and the two identity laws. -/
structure Lawful {M : Type} (m : MonoidOp M) : Prop where
  assoc : ∀ a b c, m.op (m.op a b) c = m.op a (m.op b c)
  id_left : ∀ a, m.op m.identity a = a
  id_right : ∀ a, m.op a m.identity = a

/-- Fuel-driven loop computing the least power of two that is `≥ n`: the
accumulator starts at `1` and doubles until it reaches `n`. Fuel `n` is always
sufficient because `n ≤ 2 ^ n`. -/
def np2Go (n : Nat) : Nat → Nat → Nat
  | 0, acc => acc
  | fuel + 1, acc => if n ≤ acc then acc else np2Go n fuel (2 * acc)

/-- Rust `usize::next_power_of_two`: the least power of two `≥ n`, mapping `0`
to `1`. -/
def nextPow2 (n : Nat) : Nat := np2Go n n 1

/-- The segment tree state: the flat buffer `tree` (a 1-indexed perfect binary
tree stored in a Rust `Vec<T>`, modelled as a `List`) and the logical number of
elements `len`. -/
structure SegmentTree (M : Type) where
  tree : List M
  len : Nat

namespace SegmentTree

variable {M : Type}

/-- Rust `SegmentTree::new`: empty buffer, zero length. -/
def new (M : Type) : SegmentTree M := ⟨[], 0⟩

/-- Rust `SegmentTree::capacity`: `2 * len.next_power_of_two()`. -/
def capacity (len : Nat) : Nat := 2 * nextPow2 len

/-- Rust `SegmentTree::leaf_offset`: `self.len().next_power_of_two()`. -/
def leafOffset (t : SegmentTree M) : Nat := nextPow2 t.len

/-- Rust `SegmentTree::over_capacity`. -/
def overCapacity (t : SegmentTree M) (len : Nat) : Bool :=
  capacity t.len < capacity len

/-- First loop of Rust `reconstruct`: copy the data items into consecutive
buffer slots starting at index `j` (the leaf offset at the call sites). -/
def writeLeaves (a : List M) (j : Nat) : List M → List M
  | [] => a
  | x :: xs => writeLeaves (a.set j x) (j + 1) xs

/-- Second loop of Rust `reconstruct`, `for i in (1..leaf_offset).rev()`:
recompute node `i` from its two children, for `i = k, k - 1, ..., 1`. -/
def sweep (op : M → M → M) (d : M) (a : List M) : Nat → List M
  | 0 => a
  | k + 1 =>
    sweep op d (a.set (k + 1) (op (a.getD (2 * (k + 1)) d) (a.getD (2 * (k + 1) + 1) d))) k

/-- Rust `SegmentTree::reconstruct`: write the data into the leaf slots, then
recompute every internal node bottom-up. -/
def reconstruct (m : MonoidOp M) (t : SegmentTree M) (d : List M) : SegmentTree M :=
  ⟨sweep m.op m.identity (writeLeaves t.tree t.leafOffset d) (t.leafOffset - 1), t.len⟩

/-- Rust `Vec::resize_with(n, Monoid::identity)`: truncate when shrinking, pad
with identity elements when growing. -/
def resizeWith (a : List M) (n : Nat) (d : M) : List M :=
  if n ≤ a.length then a.take n else a ++ List.replicate (n - a.length) d

/-- The logical leaf slice `tree[leaf_offset .. leaf_offset + len]`. This is
exactly what the two `split_off` calls of `IntoIterator::into_iter` retain, and
it also embeds the `self[..]` expressions of `resize_upto`, `extend_with_length`
and `iter`. Modelled from the spec: the `segment_tree::index` module that
implements the `self[..]` indexing is not present under `src/`; the spec
describes the extracted data as the "current leaves `[0, current_len)`", which
the `test_empty_tree` / `test_pair_tree` tests and the `into_iter` code confirm. -/
def leaves (t : SegmentTree M) : List M :=
  (t.tree.drop t.leafOffset).take t.len

/-- Rust `SegmentTree::resize_upto`: optionally save the leaves (when the
capacity grows), resize the buffer to `capacity len` filled with identities,
raise `len`, and rebuild from the saved leaves if any were saved. -/
def resizeUpto (m : MonoidOp M) (t : SegmentTree M) (len : Nat) : SegmentTree M :=
  let data : Option (List M) := if overCapacity t len then some (leaves t) else none
  let t1 : SegmentTree M := ⟨resizeWith t.tree (capacity len) m.identity, max len t.len⟩
  match data with
  | none => t1
  | some d => reconstruct m t1 d

/-- Rust `SegmentTree::construct`. -/
def construct (m : MonoidOp M) (t : SegmentTree M) (len : Nat) (d : List M) : SegmentTree M :=
  reconstruct m (resizeUpto m t len) d

/-- Building from a `Vec` (Rust `From<Vec<T>>`); `FromIterator` with an exact
size hint takes the same `construct` path, and without one it collects into a
`Vec` first and ends up here as well. -/
def fromVec (m : MonoidOp M) (v : List M) : SegmentTree M :=
  construct m (new M) v.length v

/-- Fuel-driven form of the `while node > 1` loop of `update_with`: step to the
parent and recompute it from its two children. Called with `fuel = node`, which
is sufficient because `node` at least halves every iteration. -/
def updatePathGo (op : M → M → M) (d : M) : Nat → List M → Nat → List M
  | 0, a, _ => a
  | fuel + 1, a, node =>
    if 1 < node then
      updatePathGo op d fuel
        (a.set (node / 2) (op (a.getD (2 * (node / 2)) d) (a.getD (2 * (node / 2) + 1) d)))
        (node / 2)
    else a

/-- Rust `SegmentTree::update_with`: when `i < len`, replace leaf `i` by `f` of
its old value, recompute the ancestor chain, and return the old value; when
`i ≥ len`, a no-op returning `None`. -/
def updateWith (m : MonoidOp M) (t : SegmentTree M) (i : Nat) (f : M → M) :
    SegmentTree M × Option M :=
  if i < t.len then
    let node := t.leafOffset + i
    let old := t.tree.getD node m.identity
    (⟨updatePathGo m.op m.identity node (t.tree.set node (f old)) node, t.len⟩, some old)
  else (t, none)

/-- Rust `SegmentTree::update`. -/
def update (m : MonoidOp M) (t : SegmentTree M) (i : Nat) (x : M) :
    SegmentTree M × Option M :=
  updateWith m t i (fun _ => x)

/-- Rust `SegmentTree::push`: grow by one, then set the new last leaf. -/
def push (m : MonoidOp M) (t : SegmentTree M) (x : M) : SegmentTree M :=
  let t1 := resizeUpto m t (t.len + 1)
  (update m t1 (t1.len - 1) x).1

/-- Rust `SegmentTree::extend_with_length`: either one bulk rebuild (when
`over_capacity(len)`) or repeated pushes of the first `len` items of the
iterator padded with identities. -/
def extendWithLength (m : MonoidOp M) (t : SegmentTree M) (len : Nat) (xs : List M) :
    SegmentTree M :=
  if overCapacity t len then
    reconstruct m (resizeUpto m t (t.len + len)) (leaves t ++ xs)
  else
    ((xs ++ List.replicate (len - xs.length) m.identity).take len).foldl
      (fun s x => push m s x) t

/-- Rust `SegmentTree::extend_from_slice`; `Extend::extend` with an exact size
hint is `extend_with_length` with that length, which is the same call. -/
def extendFromSlice (m : MonoidOp M) (t : SegmentTree M) (xs : List M) : SegmentTree M :=
  extendWithLength m t xs.length xs

/-- What iterating the tree by value yields: `into_iter` does
`tree.split_off(leaf_offset)` and drops everything past `len`, i.e. the leaf
slice. The borrowing `iter` returns the same slice through `self[..]`. -/
def intoIterList (t : SegmentTree M) : List M := leaves t

/-- One end of a Rust `RangeBounds<usize>` bound. -/
inductive RBound where
  | unbounded : RBound
  | included : Nat → RBound
  | excluded : Nat → RBound

/-- A Rust range expression: a start bound and an end bound. -/
structure RangeArg where
  start : RBound
  stop : RBound

/-- Rust `SegmentTree::indices`: normalize a range expression into a half-open
window; the end is clamped to `len`, the start is not. -/
def indices (t : SegmentTree M) (r : RangeArg) : Nat × Nat :=
  let s := match r.start with
    | RBound.unbounded => 0
    | RBound.excluded l => max (l + 1) 0
    | RBound.included l => max l 0
  let e := match r.stop with
    | RBound.unbounded => t.len
    | RBound.excluded q => min q t.len
    | RBound.included q => min (q + 1) t.len
  (s, e)

/-- Fuel-driven form of the `while left < right` loop of `combine`, with the
source's single accumulator: a left-boundary node is folded as
`op res tree[left]` and a right-boundary node as `op tree[right] res`. Called
with `fuel = right`; `right` at least halves every iteration, so the fuel is
sufficient, and when the fuel is `0` the loop guard `left < right` is already
false so returning `res` agrees with the loop. -/
def combineGo (op : M → M → M) (d : M) (a : List M) : Nat → Nat → Nat → M → M
  | 0, _, _, res => res
  | fuel + 1, left, right, res =>
    if left < right then
      let left1 := if left % 2 = 1 then left + 1 else left
      let res1 := if left % 2 = 1 then op res (a.getD left d) else res
      let right1 := if right % 2 = 1 then right - 1 else right
      let res2 := if right % 2 = 1 then op (a.getD right1 d) res1 else res1
      combineGo op d a fuel (left1 / 2) (right1 / 2) res2
    else res

/-- The body of Rust `combine` after `indices` has produced the half-open
window `[s, e)`. -/
def combineWindow (m : MonoidOp M) (t : SegmentTree M) (s e : Nat) : M :=
  combineGo m.op m.identity t.tree (t.leafOffset + e) (t.leafOffset + s) (t.leafOffset + e)
    m.identity

/-- Rust `SegmentTree::combine`. -/
def combine (m : MonoidOp M) (t : SegmentTree M) (r : RangeArg) : M :=
  combineWindow m t (indices t r).1 (indices t r).2

/-- Fuel-driven form of the `while end - start > 1` loop of `bisect_left`,
followed by the final single-leaf test
`cmp(&self.tree[self.leaf_offset() + start]).then_some(start)`. Called with
`fuel = e - s`; the window width shrinks every iteration, so when the fuel is
`0` the width is at most `1` and the loop guard is already false. -/
def bisectGoL (m : MonoidOp M) (t : SegmentTree M) (p : M → Bool) :
    Nat → Nat → Nat → Option Nat
  | 0, s, _ => if p (t.tree.getD (t.leafOffset + s) m.identity) then some s else none
  | fuel + 1, s, e =>
    if 1 < e - s then
      let mid := (s + e) / 2
      if p (combineWindow m t s mid) then bisectGoL m t p fuel s mid
      else bisectGoL m t p fuel mid e
    else if p (t.tree.getD (t.leafOffset + s) m.identity) then some s else none

/-- Rust `SegmentTree::bisect_left` (its value on the inputs where it does not
panic; the checked variant below models the panics). -/
def bisectLeft (m : MonoidOp M) (t : SegmentTree M) (r : RangeArg) (p : M → Bool) :
    Option Nat :=
  bisectGoL m t p ((indices t r).2 - (indices t r).1) (indices t r).1 (indices t r).2

/-- Fuel-driven form of the `while end - start > 1` loop of `bisect_right`:
the half tested is the upper one, `cmp(&self.combine(mid..end))`, and the final
single-leaf test is the same as in `bisect_left`. -/
def bisectGoR (m : MonoidOp M) (t : SegmentTree M) (p : M → Bool) :
    Nat → Nat → Nat → Option Nat
  | 0, s, _ => if p (t.tree.getD (t.leafOffset + s) m.identity) then some s else none
  | fuel + 1, s, e =>
    if 1 < e - s then
      let mid := (s + e) / 2
      if p (combineWindow m t mid e) then bisectGoR m t p fuel mid e
      else bisectGoR m t p fuel s mid
    else if p (t.tree.getD (t.leafOffset + s) m.identity) then some s else none

/-- Rust `SegmentTree::bisect_right` (non-panicking value). -/
def bisectRight (m : MonoidOp M) (t : SegmentTree M) (r : RangeArg) (p : M → Bool) :
    Option Nat :=
  bisectGoR m t p ((indices t r).2 - (indices t r).1) (indices t r).1 (indices t r).2

/-- Checked variant of the `combine` loop: every `self.tree[..]` access is
performed with `List.getElem?`, and an out-of-bounds access (a Rust panic)
yields `none`. -/
def combineGoChk (op : M → M → M) (a : List M) : Nat → Nat → Nat → M → Option M
  | 0, _, _, res => some res
  | fuel + 1, left, right, res =>
    if left < right then
      match (if left % 2 = 1 then (a[left]?).map (fun x => op res x) else some res) with
      | none => none
      | some res1 =>
        match (if right % 2 = 1 then (a[right - 1]?).map (fun x => op x res1) else some res1) with
        | none => none
        | some res2 =>
          combineGoChk op a fuel ((if left % 2 = 1 then left + 1 else left) / 2)
            ((if right % 2 = 1 then right - 1 else right) / 2) res2
    else some res

/-- Rust `combine` with checked buffer accesses; `none` means a panic. -/
def combineChk (m : MonoidOp M) (t : SegmentTree M) (r : RangeArg) : Option M :=
  combineGoChk m.op t.tree (t.leafOffset + (indices t r).2) (t.leafOffset + (indices t r).1)
    (t.leafOffset + (indices t r).2) m.identity

/-- Checked variant of the `while node > 1` loop of `update_with`. -/
def updatePathChk (op : M → M → M) : Nat → List M → Nat → Option (List M)
  | 0, a, _ => some a
  | fuel + 1, a, node =>
    if 1 < node then
      match a[2 * (node / 2)]?, a[2 * (node / 2) + 1]? with
      | some lc, some rc => updatePathChk op fuel (a.set (node / 2) (op lc rc)) (node / 2)
      | _, _ => none
    else some a

/-- Rust `update_with` with checked buffer accesses; `none` means a panic. -/
def updateWithChk (m : MonoidOp M) (t : SegmentTree M) (i : Nat) (f : M → M) :
    Option (SegmentTree M × Option M) :=
  if i < t.len then
    match t.tree[t.leafOffset + i]? with
    | none => none
    | some old =>
      (updatePathChk m.op (t.leafOffset + i) (t.tree.set (t.leafOffset + i) (f old))
        (t.leafOffset + i)).map (fun a => (⟨a, t.len⟩, some old))
  else some (t, none)

/-- Rust `update` with checked buffer accesses. -/
def updateChk (m : MonoidOp M) (t : SegmentTree M) (i : Nat) (x : M) :
    Option (SegmentTree M × Option M) :=
  updateWithChk m t i (fun _ => x)

/-- Checked variant of `bisect_left`: models the debug-profile `usize` underflow
panic of the loop guard `end - start > 1` when `end < start`, the out-of-bounds
final leaf access, and the checked accesses of the inner `combine` calls;
`none` means a panic. -/
def bisectGoLChk (m : MonoidOp M) (t : SegmentTree M) (p : M → Bool) :
    Nat → Nat → Nat → Option (Option Nat)
  | 0, s, e =>
    if e < s then none
    else
      match t.tree[t.leafOffset + s]? with
      | none => none
      | some x => some (if p x then some s else none)
  | fuel + 1, s, e =>
    if e < s then none
    else if 1 < e - s then
      match combineGoChk m.op t.tree (t.leafOffset + (s + e) / 2) (t.leafOffset + s)
          (t.leafOffset + (s + e) / 2) m.identity with
      | none => none
      | some v =>
        if p v then bisectGoLChk m t p fuel s ((s + e) / 2)
        else bisectGoLChk m t p fuel ((s + e) / 2) e
    else
      match t.tree[t.leafOffset + s]? with
      | none => none
      | some x => some (if p x then some s else none)

/-- Rust `bisect_left` with panics modelled; `none` means a panic. -/
def bisectLeftChk (m : MonoidOp M) (t : SegmentTree M) (r : RangeArg) (p : M → Bool) :
    Option (Option Nat) :=
  bisectGoLChk m t p ((indices t r).2 - (indices t r).1) (indices t r).1 (indices t r).2

/-- Checked variant of `bisect_right`; `none` means a panic. -/
def bisectGoRChk (m : MonoidOp M) (t : SegmentTree M) (p : M → Bool) :
    Nat → Nat → Nat → Option (Option Nat)
  | 0, s, e =>
    if e < s then none
    else
      match t.tree[t.leafOffset + s]? with
      | none => none
      | some x => some (if p x then some s else none)
  | fuel + 1, s, e =>
    if e < s then none
    else if 1 < e - s then
      match combineGoChk m.op t.tree (t.leafOffset + e) (t.leafOffset + (s + e) / 2)
          (t.leafOffset + e) m.identity with
      | none => none
      | some v =>
        if p v then bisectGoRChk m t p fuel ((s + e) / 2) e
        else bisectGoRChk m t p fuel s ((s + e) / 2)
    else
      match t.tree[t.leafOffset + s]? with
      | none => none
      | some x => some (if p x then some s else none)

/-- Rust `bisect_right` with panics modelled; `none` means a panic. -/
def bisectRightChk (m : MonoidOp M) (t : SegmentTree M) (r : RangeArg) (p : M → Bool) :
    Option (Option Nat) :=
  bisectGoRChk m t p ((indices t r).2 - (indices t r).1) (indices t r).1 (indices t r).2

/-- Specification-side value: the left-to-right fold of the operation over the
logical elements of the window `[s, e)`, i.e. what the spec says `combine`
returns on that window. -/
def foldWindow (m : MonoidOp M) (t : SegmentTree M) (s e : Nat) : M :=
  (((leaves t).drop s).take (e - s)).foldl m.op m.identity

/-- The leaf value seen by `bisect_left`'s and `bisect_right`'s final test. -/
def leafAt (m : MonoidOp M) (t : SegmentTree M) (k : Nat) : M :=
  t.tree.getD (t.leafOffset + k) m.identity

/-- Specification-side value: the smallest index of `[s, e)` whose leaf
satisfies `q`. -/
def specFindLeft (q : Nat → Bool) (s e : Nat) : Option Nat :=
  (List.range' s (e - s)).find? q

/-- Specification-side value: the largest index of `[s, e)` whose leaf
satisfies `q`. -/
def specFindRight (q : Nat → Bool) (s e : Nat) : Option Nat :=
  ((List.range' s (e - s)).reverse).find? q

/-- The compatibility condition between the predicate and the tree under which
the bisection loops are exact: on every sub-window of `[s, e)`, the predicate
holds of the sub-window's `combine` value exactly when some leaf of the
sub-window satisfies it (e.g. a threshold predicate over a max tree). -/
def detects (m : MonoidOp M) (t : SegmentTree M) (p : M → Bool) (s e : Nat) : Prop :=
  ∀ b, b ≤ e → ∀ a, a < b → s ≤ a →
    (p (combineWindow m t a b) = true ↔ ∃ k, k < b ∧ a ≤ k ∧ p (leafAt m t k) = true)

/-- The list-level form of the internal-node invariant at index `i`:
`tree[i] = op(tree[2i], tree[2i+1])`. -/
def NodeEqL (op : M → M → M) (d : M) (a : List M) (i : Nat) : Prop :=
  a.getD i d = op (a.getD (2 * i) d) (a.getD (2 * i + 1) d)

/-- The structural well-formedness invariant maintained by every public
operation: the buffer has length `capacity len` (except for the untouched
`new()` state), every internal node is the `op` of its children, every padding
leaf slot holds the identity, and the unused slot `0` holds the identity. -/
structure Wf (m : MonoidOp M) (t : SegmentTree M) : Prop where
  len_eq : t.tree.length = capacity t.len ∨ (t.tree = [] ∧ t.len = 0)
  node : ∀ i, 1 ≤ i → i < leafOffset t → NodeEqL m.op m.identity t.tree i
  padding : ∀ j, t.len ≤ j → j < leafOffset t →
    t.tree.getD (leafOffset t + j) m.identity = m.identity
  slot0 : t.tree.getD 0 m.identity = m.identity

/-- The part of the invariant claimed by the specification: the internal-node
equation at every internal index, identity padding, and (so that the statement
is about the real buffer and not about `getD` defaults) the buffer length. -/
def InvariantHolds (m : MonoidOp M) (t : SegmentTree M) : Prop :=
  (∀ i, 1 ≤ i → i < leafOffset t → NodeEqL m.op m.identity t.tree i) ∧
  (∀ j, t.len ≤ j → j < leafOffset t →
    t.tree.getD (leafOffset t + j) m.identity = m.identity) ∧
  (0 < t.len → t.tree.length = capacity t.len)

/-- The trees reachable through the public API: `new`, construction from a
vector or iterator, `push`, `extend` / `extend_from_slice`, `update` and
`update_with`. -/
inductive Reachable (m : MonoidOp M) : SegmentTree M → Prop where
  | new : Reachable m (new M)
  | fromVec (v : List M) : Reachable m (fromVec m v)
  | push {t : SegmentTree M} (x : M) : Reachable m t → Reachable m (push m t x)
  | extendSlice {t : SegmentTree M} (xs : List M) :
      Reachable m t → Reachable m (extendFromSlice m t xs)
  | updateWith {t : SegmentTree M} (i : Nat) (f : M → M) :
      Reachable m t → Reachable m (SegmentTree.updateWith m t i f).1
  | update {t : SegmentTree M} (i : Nat) (x : M) :
      Reachable m t → Reachable m (SegmentTree.update m t i x).1

/-- An array cell index lying on the update path of the buffer cell `leaf`:
the cell itself or one of its ancestors `leaf / 2 ^ k`, down to the root cell
`1` and no further (the guard `0 < c` excludes the pseudo-index `0`, where the
repeated halving bottoms out past the root; cell `0` is not a tree node and is
never written). -/
def PathNode (leaf c : Nat) : Prop :=
  0 < c ∧ c ∈ (List.range (leaf + 1)).map fun k => leaf / 2 ^ k

/-- A mutation step of the round-trip claim: a point update or a push. -/
inductive TreeOp (M : Type) where
  | update (i : Nat) (x : M) : TreeOp M
  | push (x : M) : TreeOp M

/-- Apply a sequence of point updates and pushes to a tree. -/
def applyOps (m : MonoidOp M) (t : SegmentTree M) (ops : List (TreeOp M)) : SegmentTree M :=
  ops.foldl
    (fun s o => match o with
      | TreeOp.update i x => (SegmentTree.update m s i x).1
      | TreeOp.push x => SegmentTree.push m s x) t

/-- The reference model of the same sequence on a plain list: a point update is
`List.set` (a no-op out of range, as in the tree) and a push appends. -/
def modelOps (v : List M) (ops : List (TreeOp M)) : List M :=
  ops.foldl
    (fun l o => match o with
      | TreeOp.update i x => l.set i x
      | TreeOp.push x => l ++ [x]) v

end SegmentTree

/-- The additive monoid on `Nat`, the embedding of the crate's `Sum` operation
used by the segment tree tests. -/
def sumM : MonoidOp Nat := ⟨Nat.add, 0⟩

/-- The maximum monoid on `Nat` with identity `0`, a Nat-valued analogue of the
crate's `Max` operation. -/
def maxM : MonoidOp Nat := ⟨Nat.max, 0⟩

/-- The list-concatenation monoid, a non-commutative lawful monoid (the crate
itself ships non-commutative operations such as `Coalesce`, `Overwrite` and
`Concat`, and `SegmentTree` only requires `Monoid`). -/
def concatM : MonoidOp (List Nat) := ⟨List.append, []⟩

theorem np2Go_isPow (n : Nat) :
    ∀ fuel acc, (∃ k, acc = 2 ^ k) → ∃ k, np2Go n fuel acc = 2 ^ k := by
  intro fuel
  induction fuel with
  | zero => intro acc h; exact h
  | succ fuel ih =>
    intro acc h
    unfold np2Go
    split
    · exact h
    · obtain ⟨k, hk⟩ := h
      exact ih (2 * acc) ⟨k + 1, by rw [hk, Nat.pow_succ, Nat.mul_comm]⟩

theorem np2Go_ge (n : Nat) :
    ∀ fuel acc, n ≤ acc * 2 ^ fuel → n ≤ np2Go n fuel acc := by
  intro fuel
  induction fuel with
  | zero => intro acc h; simpa [np2Go] using h
  | succ fuel ih =>
    intro acc h
    unfold np2Go
    split
    · assumption
    · refine ih (2 * acc) ?_
      calc n ≤ acc * 2 ^ (fuel + 1) := h
        _ = 2 * acc * 2 ^ fuel := by ring

theorem np2Go_le (n : Nat) :
    ∀ fuel acc j k, acc = 2 ^ j → n ≤ 2 ^ k → acc ≤ 2 ^ k →
      np2Go n fuel acc ≤ 2 ^ k := by
  intro fuel
  induction fuel with
  | zero => intro acc j k _ _ h3; simpa [np2Go] using h3
  | succ fuel ih =>
    intro acc j k h1 h2 h3
    unfold np2Go
    split
    · assumption
    · refine ih (2 * acc) (j + 1) k (by rw [h1, Nat.pow_succ, Nat.mul_comm]) h2 ?_
      have hjk : j < k := by
        by_contra hcon
        have : 2 ^ k ≤ 2 ^ j := Nat.pow_le_pow_right (by omega) (by omega)
        omega
      calc 2 * acc = 2 ^ (j + 1) := by rw [h1, Nat.pow_succ, Nat.mul_comm]
        _ ≤ 2 ^ k := Nat.pow_le_pow_right (by omega) (by omega)

theorem nextPow2_isPow (n : Nat) : ∃ k, nextPow2 n = 2 ^ k :=
  np2Go_isPow n n 1 ⟨0, rfl⟩

theorem nextPow2_ge (n : Nat) : n ≤ nextPow2 n :=
  np2Go_ge n n 1 (by simpa using Nat.le_of_lt (Nat.lt_two_pow n))

theorem nextPow2_pos (n : Nat) : 0 < nextPow2 n := by
  obtain ⟨k, hk⟩ := nextPow2_isPow n
  rw [hk]
  exact Nat.pos_pow_of_pos k (by omega)

theorem nextPow2_le_pow (n k : Nat) (h : n ≤ 2 ^ k) : nextPow2 n ≤ 2 ^ k :=
  np2Go_le n n 1 0 k rfl h (Nat.one_le_two_pow)

theorem nextPow2_mono {a b : Nat} (h : a ≤ b) : nextPow2 a ≤ nextPow2 b := by
  obtain ⟨k, hk⟩ := nextPow2_isPow b
  have := nextPow2_le_pow a k (hk ▸ Nat.le_trans h (nextPow2_ge b))
  omega

theorem nextPow2_double_le {a b : Nat} (h : nextPow2 a < nextPow2 b) :
    2 * nextPow2 a ≤ nextPow2 b := by
  obtain ⟨j, hj⟩ := nextPow2_isPow a
  obtain ⟨k, hk⟩ := nextPow2_isPow b
  rw [hj, hk] at h ⊢
  have hjk : j < k := by
    by_contra hcon
    have : 2 ^ k ≤ 2 ^ j := Nat.pow_le_pow_right (by omega) (by omega)
    omega
  calc 2 * 2 ^ j = 2 ^ (j + 1) := by rw [Nat.pow_succ, Nat.mul_comm]
    _ ≤ 2 ^ k := Nat.pow_le_pow_right (by omega) (by omega)

theorem nextPow2_zero : nextPow2 0 = 1 := rfl

section ListHelpers

variable {M : Type}

theorem getD_eq_getElem? (a : List M) (i : Nat) (d : M) : a.getD i d = (a[i]?).getD d :=
  List.getD_eq_getElem?_getD a i d

theorem getD_set_self (a : List M) (i : Nat) (x d : M) (h : i < a.length) :
    (a.set i x).getD i d = x := by
  rw [getD_eq_getElem?, List.getElem?_set_eq_of_lt x h]
  rfl

theorem getD_set_ne (a : List M) {i j : Nat} (x : M) (d : M) (h : i ≠ j) :
    (a.set i x).getD j d = a.getD j d := by
  rw [getD_eq_getElem?, getD_eq_getElem?, List.getElem?_set_ne h]

theorem getD_of_length_le (a : List M) (i : Nat) (d : M) (h : a.length ≤ i) :
    a.getD i d = d := by
  rw [getD_eq_getElem?, List.getElem?_eq_none h]
  rfl

theorem getD_append_left (a b : List M) (i : Nat) (d : M) (h : i < a.length) :
    (a ++ b).getD i d = a.getD i d := by
  rw [getD_eq_getElem?, getD_eq_getElem?, List.getElem?_append]
  simp [h]

theorem getD_append_right (a b : List M) (i : Nat) (d : M) (h : a.length ≤ i) :
    (a ++ b).getD i d = b.getD (i - a.length) d := by
  rw [getD_eq_getElem?, getD_eq_getElem?, List.getElem?_append]
  simp [Nat.not_lt_of_le h]

theorem getD_replicate (n i : Nat) (x d : M) (h : i < n) :
    (List.replicate n x).getD i d = x := by
  rw [getD_eq_getElem?, List.getElem?_replicate]
  simp [h]

theorem getD_take (a : List M) (n i : Nat) (d : M) (h : i < n) :
    (a.take n).getD i d = a.getD i d := by
  rw [getD_eq_getElem?, getD_eq_getElem?, List.getElem?_take]
  simp [h]

theorem getD_drop (a : List M) (n i : Nat) (d : M) :
    (a.drop n).getD i d = a.getD (n + i) d := by
  rw [getD_eq_getElem?, getD_eq_getElem?, List.getElem?_drop]

theorem list_ext_getD {l1 l2 : List M} (d : M) (hlen : l1.length = l2.length)
    (h : ∀ k, k < l1.length → l1.getD k d = l2.getD k d) : l1 = l2 := by
  apply List.ext_getElem hlen
  intro i h1 h2
  have := h i h1
  rw [getD_eq_getElem?, getD_eq_getElem?, List.getElem?_eq_getElem h1,
    List.getElem?_eq_getElem h2] at this
  exact this

theorem set_out_of_range (l : List M) (i : Nat) (x : M) (h : l.length ≤ i) :
    l.set i x = l :=
  List.set_eq_of_length_le h

end ListHelpers

namespace SegmentTree

variable {M : Type}

theorem segTree_eq {s t : SegmentTree M} (h1 : s.tree = t.tree) (h2 : s.len = t.len) :
    s = t := by
  cases s; cases t; simp_all

theorem len_le_leafOffset (t : SegmentTree M) : t.len ≤ leafOffset t :=
  nextPow2_ge t.len

theorem leafOffset_pos (t : SegmentTree M) : 0 < leafOffset t :=
  nextPow2_pos t.len

theorem capacity_eq (len : Nat) : capacity len = 2 * nextPow2 len := rfl

theorem capacity_mono {a b : Nat} (h : a ≤ b) : capacity a ≤ capacity b := by
  have := nextPow2_mono h
  simp only [capacity]
  omega

theorem length_leaves_wf {m : MonoidOp M} {t : SegmentTree M} (hwf : Wf m t) :
    (leaves t).length = t.len := by
  rcases hwf.len_eq with h | ⟨h1, h2⟩
  · have hlen : t.len ≤ leafOffset t := len_le_leafOffset t
    have : t.tree.length = 2 * leafOffset t := h
    simp only [leaves, List.length_take, List.length_drop]
    omega
  · simp [leaves, h1, h2]

theorem length_leaves (t : SegmentTree M) :
    (leaves t).length = min t.len (t.tree.length - leafOffset t) := by
  simp [leaves]

theorem leaves_getD {t : SegmentTree M} (k : Nat) (d : M) (hk : k < t.len) :
    (leaves t).getD k d = t.tree.getD (leafOffset t + k) d := by
  rw [leaves, getD_take _ _ _ _ hk, getD_drop]

theorem combineGo_of_ge (op : M → M → M) (d : M) (a : List M) (fuel left right : Nat)
    (res : M) (h : right ≤ left) : combineGo op d a fuel left right res = res := by
  cases fuel with
  | zero => rfl
  | succ fuel =>
    unfold combineGo
    rw [if_neg (by omega)]

theorem length_sweep (op : M → M → M) (d : M) :
    ∀ k (a : List M), (sweep op d a k).length = a.length := by
  intro k
  induction k with
  | zero => intro a; rfl
  | succ k ih => intro a; rw [sweep, ih, List.length_set]

theorem sweep_getD_high (op : M → M → M) (d d' : M) :
    ∀ k (a : List M) (j : Nat), k < j → (sweep op d a k).getD j d' = a.getD j d' := by
  intro k
  induction k with
  | zero => intro a j _; rfl
  | succ k ih =>
    intro a j hj
    rw [sweep, ih _ _ (by omega), getD_set_ne _ _ _ (by omega)]

theorem sweep_getD_zero (op : M → M → M) (d d' : M) :
    ∀ k (a : List M), (sweep op d a k).getD 0 d' = a.getD 0 d' := by
  intro k
  induction k with
  | zero => intro a; rfl
  | succ k ih =>
    intro a
    rw [sweep, ih, getD_set_ne _ _ _ (by omega)]

theorem sweep_node (op : M → M → M) (d : M) :
    ∀ k (a : List M), k < a.length →
      ∀ j, 1 ≤ j → j ≤ k → NodeEqL op d (sweep op d a k) j := by
  intro k
  induction k with
  | zero => intro a _ j h1 h2; omega
  | succ k ih =>
    intro a hk j h1 h2
    rw [sweep]
    set v := op (a.getD (2 * (k + 1)) d) (a.getD (2 * (k + 1) + 1) d) with hv
    set a1 := a.set (k + 1) v with ha1
    rcases Nat.lt_or_ge j (k + 1) with hj | hj
    · exact ih a1 (by rw [ha1, List.length_set]; omega) j h1 (by omega)
    · have hjeq : j = k + 1 := by omega
      subst hjeq
      unfold NodeEqL
      rw [sweep_getD_high op d d _ _ _ (by omega),
        sweep_getD_high op d d _ _ _ (by omega),
        sweep_getD_high op d d _ _ _ (by omega)]
      rw [ha1, getD_set_self _ _ _ _ hk,
        getD_set_ne _ _ _ (by omega), getD_set_ne _ _ _ (by omega)]

theorem length_writeLeaves (a : List M) (j : Nat) (xs : List M) :
    (writeLeaves a j xs).length = a.length := by
  induction xs generalizing a j with
  | nil => rfl
  | cons x xs ih => rw [writeLeaves, ih, List.length_set]

theorem writeLeaves_getD_lt (d : M) (xs : List M) :
    ∀ (a : List M) (j i : Nat), i < j → (writeLeaves a j xs).getD i d = a.getD i d := by
  induction xs with
  | nil => intro a j i _; rfl
  | cons x xs ih =>
    intro a j i hi
    rw [writeLeaves, ih _ _ _ (by omega), getD_set_ne _ _ _ (by omega)]

theorem writeLeaves_getD_ge (d : M) (xs : List M) :
    ∀ (a : List M) (j i : Nat), j + xs.length ≤ i →
      (writeLeaves a j xs).getD i d = a.getD i d := by
  induction xs with
  | nil => intro a j i _; rfl
  | cons x xs ih =>
    intro a j i hi
    simp only [List.length_cons] at hi
    rw [writeLeaves, ih _ _ _ (by omega), getD_set_ne _ _ _ (by omega)]

theorem writeLeaves_getD_mem (d : M) (xs : List M) :
    ∀ (a : List M) (j k : Nat), k < xs.length → j + xs.length ≤ a.length →
      (writeLeaves a j xs).getD (j + k) d = xs.getD k d := by
  induction xs with
  | nil => intro a j k hk _; simp at hk
  | cons x xs ih =>
    intro a j k hk hle
    simp only [List.length_cons] at hk hle
    cases k with
    | zero =>
      simp only [Nat.add_zero, writeLeaves]
      rw [writeLeaves_getD_lt _ _ _ _ _ (by omega), getD_set_self _ _ _ _ (by omega)]
      rfl
    | succ k =>
      have : j + (k + 1) = (j + 1) + k := by omega
      rw [writeLeaves, this, ih _ _ _ (by omega) (by rw [List.length_set]; omega)]
      rfl

/-- What `reconstruct` does to a buffer of the right length when given at most
`len` data items: every internal node satisfies the node equation, the first
`d.length` leaf slots take the data, all other slots (higher leaf slots and
slot `0`) are untouched, and the length is preserved. -/
theorem reconstruct_spec (m : MonoidOp M) (t : SegmentTree M) (d : List M)
    (hlen : t.tree.length = capacity t.len) (hd : d.length ≤ t.len) :
    (reconstruct m t d).len = t.len ∧
    (reconstruct m t d).tree.length = t.tree.length ∧
    (∀ i, 1 ≤ i → i < leafOffset t → NodeEqL m.op m.identity (reconstruct m t d).tree i) ∧
    (∀ k, k < d.length →
      (reconstruct m t d).tree.getD (leafOffset t + k) m.identity = d.getD k m.identity) ∧
    (∀ k, d.length ≤ k →
      (reconstruct m t d).tree.getD (leafOffset t + k) m.identity
        = t.tree.getD (leafOffset t + k) m.identity) ∧
    (reconstruct m t d).tree.getD 0 m.identity = t.tree.getD 0 m.identity := by
  have hcap : t.tree.length = 2 * leafOffset t := hlen
  have hlenle : t.len ≤ leafOffset t := len_le_leafOffset t
  have hpos : 0 < leafOffset t := leafOffset_pos t
  have ha1len : (writeLeaves t.tree (leafOffset t) d).length = t.tree.length :=
    length_writeLeaves _ _ _
  refine ⟨rfl, ?_, ?_, ?_, ?_, ?_⟩
  · simp only [reconstruct, length_sweep, length_writeLeaves]
  · intro i h1 h2
    have := sweep_node m.op m.identity (leafOffset t - 1)
      (writeLeaves t.tree (leafOffset t) d) (by omega) i h1 (by omega)
    exact this
  · intro k hk
    show (sweep m.op m.identity _ _).getD _ _ = _
    rw [sweep_getD_high m.op m.identity m.identity _ _ _ (by omega)]
    exact writeLeaves_getD_mem m.identity d t.tree (leafOffset t) k hk (by omega)
  · intro k hk
    show (sweep m.op m.identity _ _).getD _ _ = _
    rw [sweep_getD_high m.op m.identity m.identity _ _ _ (by omega)]
    exact writeLeaves_getD_ge m.identity d t.tree (leafOffset t) _ (by omega)
  · show (sweep m.op m.identity _ _).getD _ _ = _
    rw [sweep_getD_zero, writeLeaves_getD_lt _ _ _ _ _ (by omega)]

end SegmentTree

namespace SegmentTree

variable {M : Type}

theorem overCapacity_true {t : SegmentTree M} {L : Nat} :
    overCapacity t L = true ↔ capacity t.len < capacity L := by
  simp [overCapacity]

theorem resizeUpto_eq_over (m : MonoidOp M) (t : SegmentTree M) (L : Nat)
    (h : overCapacity t L = true) :
    resizeUpto m t L
      = reconstruct m ⟨resizeWith t.tree (capacity L) m.identity, max L t.len⟩ (leaves t) := by
  simp [resizeUpto, h]

theorem resizeUpto_eq_not_over (m : MonoidOp M) (t : SegmentTree M) (L : Nat)
    (h : overCapacity t L = false) :
    resizeUpto m t L = ⟨resizeWith t.tree (capacity L) m.identity, max L t.len⟩ := by
  simp [resizeUpto, h]


/-- `resize_upto` under its actual calling convention (the requested capacity
is never smaller than the current one): the invariant is preserved, `len`
becomes `max len current_len`, and the leaf slice is the old one padded with
identities. -/
theorem resizeUpto_spec (m : MonoidOp M) (t : SegmentTree M) (L : Nat) (hwf : Wf m t)
    (hcap : capacity t.len ≤ capacity L) :
    Wf m (resizeUpto m t L) ∧ (resizeUpto m t L).len = max L t.len ∧
    (resizeUpto m t L).tree.length = capacity (max L t.len) ∧
    leaves (resizeUpto m t L)
      = leaves t ++ List.replicate (max L t.len - t.len) m.identity := by
  have hlenlo : t.len ≤ leafOffset t := len_le_leafOffset t
  rcases hov : overCapacity t L with hfalse | htrue
  · -- the capacity does not grow, hence it is exactly preserved
    have hcapeq : capacity L = capacity t.len := by
      have := (not_iff_not.mpr (overCapacity_true (t := t) (L := L))).mp (by simp [hov])
      omega
    have hnp2eq : nextPow2 L = nextPow2 t.len := by
      simp only [capacity] at hcapeq; omega
    have hLle : L ≤ leafOffset t := Nat.le_trans (nextPow2_ge L) (le_of_eq hnp2eq)
    have hmaxle : max L t.len ≤ leafOffset t := by omega
    have hlomax : nextPow2 (max L t.len) = nextPow2 t.len := by
      rcases Nat.le_total L t.len with h | h
      · rw [Nat.max_eq_right h]
      · rw [Nat.max_eq_left h, hnp2eq]
    rw [resizeUpto_eq_not_over m t L hov]
    rcases hwf.len_eq with hnorm | ⟨hnil, hzero⟩
    · -- the buffer already has length `capacity t.len = capacity L`
      have htree : resizeWith t.tree (capacity L) m.identity = t.tree := by
        rw [resizeWith, if_pos (by omega), hcapeq, ← hnorm, List.take_length]
      rw [htree]
      have hloeq : leafOffset (⟨t.tree, max L t.len⟩ : SegmentTree M) = leafOffset t := by
        simp only [leafOffset]; exact hlomax
      refine ⟨⟨?_, ?_, ?_, ?_⟩, rfl, ?_, ?_⟩
      · left
        show t.tree.length = capacity (max L t.len)
        rw [hnorm]
        simp only [capacity]
        omega
      · intro i h1 h2
        rw [hloeq] at h2
        exact hwf.node i h1 h2
      · intro j hj1 hj2
        rw [hloeq] at hj2 ⊢
        have hj1' : max L t.len ≤ j := hj1
        exact hwf.padding j (by omega) hj2
      · exact hwf.slot0
      · show t.tree.length = capacity (max L t.len)
        rw [hnorm]
        simp only [capacity]
        omega
      · -- leaf slice: old leaves plus identity padding up to the new length
        have hlv : (leaves t).length = t.len := length_leaves_wf hwf
        apply list_ext_getD m.identity
        · simp only [leaves, List.length_take, List.length_drop, List.length_append,
            List.length_replicate, hlv]
          rw [hloeq, hnorm]
          simp only [capacity]
          have : leafOffset t = nextPow2 t.len := rfl
          omega
        · intro k hk
          have hk2 : k < max L t.len := by
            simp only [leaves, List.length_take, List.length_drop] at hk
            omega
          have hlhs : (leaves (⟨t.tree, max L t.len⟩ : SegmentTree M)).getD k m.identity
              = t.tree.getD (leafOffset t + k) m.identity := by
            rw [leaves_getD k m.identity hk2]
            simp only [leafOffset, hlomax]
          rw [hlhs]
          rcases Nat.lt_or_ge k t.len with hklt | hkge
          · rw [getD_append_left _ _ _ _ (by omega),
              leaves_getD k m.identity hklt]
          · rw [getD_append_right _ _ _ _ (by omega), hlv,
              getD_replicate _ _ _ _ (by omega)]
            exact hwf.padding k hkge (by omega)
    · -- the untouched `new()` state: the buffer becomes `[identity, identity]`
      have hcap0 : capacity t.len = 2 := by rw [hzero]; rfl
      have hcapL : capacity L = 2 := by omega
      have hnp2L : nextPow2 L = 1 := by simp only [capacity] at hcapL; omega
      have hL1 : L ≤ 1 := Nat.le_trans (nextPow2_ge L) (le_of_eq hnp2L)
      have htree : resizeWith t.tree (capacity L) m.identity
          = [m.identity, m.identity] := by
        rw [resizeWith, hnil, hcapL]
        simp [List.replicate]
      rw [htree, hzero]
      have hloL : nextPow2 (max L 0) = 1 := by rw [Nat.max_zero]; exact hnp2L
      refine ⟨⟨?_, ?_, ?_, ?_⟩, rfl, ?_, ?_⟩
      · left
        show ([m.identity, m.identity] : List M).length = capacity (max L 0)
        simp only [capacity, List.length_cons, List.length_nil, hloL]
      · intro i h1 h2
        simp only [leafOffset, hloL] at h2
        omega
      · intro j hj1 hj2
        simp only [leafOffset, hloL] at hj2 ⊢
        have : j = 0 := by omega
        subst this
        simp [List.getD]
      · simp [List.getD]
      · show ([m.identity, m.identity] : List M).length = capacity (max L 0)
        simp only [capacity, List.length_cons, List.length_nil, hloL]
      · have hlt : leaves t = [] := by simp [leaves, hnil]
        rw [hlt, Nat.max_zero, Nat.sub_zero, List.nil_append]
        interval_cases L
        · rfl
        · rfl
  · -- the capacity grows: the buffer is extended and fully rebuilt
    have hlt : capacity t.len < capacity L := overCapacity_true.mp hov
    have hnp2lt : nextPow2 t.len < nextPow2 L := by
      simp only [capacity] at hlt; omega
    have hLgt : t.len < L := by
      by_contra hcon
      have := nextPow2_mono (Nat.le_of_not_lt hcon)
      omega
    have hmax : max L t.len = L := Nat.max_eq_left (by omega)
    have hnp2geL : L ≤ nextPow2 L := nextPow2_ge L
    have hlenlt : t.tree.length < capacity L := by
      rcases hwf.len_eq with hnorm | ⟨hnil, _⟩
      · omega
      · rw [hnil]
        simp only [List.length_nil, capacity]
        have := nextPow2_pos L
        omega
    have hlenle : t.tree.length ≤ nextPow2 L := by
      rcases hwf.len_eq with hnorm | ⟨hnil, _⟩
      · have := nextPow2_double_le hnp2lt
        simp only [capacity] at hnorm
        omega
      · rw [hnil]; simp
    have htree : resizeWith t.tree (capacity L) m.identity
        = t.tree ++ List.replicate (capacity L - t.tree.length) m.identity := by
      rw [resizeWith, if_neg (by omega)]
    rw [resizeUpto_eq_over m t L hov, htree, hmax]
    set t1 : SegmentTree M :=
      ⟨t.tree ++ List.replicate (capacity L - t.tree.length) m.identity, L⟩ with ht1
    have ht1L : t1.len = L := rfl
    have ht1tree : t1.tree
        = t.tree ++ List.replicate (capacity L - t.tree.length) m.identity := rfl
    have hlo1 : leafOffset t1 = nextPow2 L := rfl
    have ht1len : t1.tree.length = capacity t1.len := by
      rw [ht1tree, ht1L, List.length_append, List.length_replicate]
      omega
    have hdlen : (leaves t).length = t.len := length_leaves_wf hwf
    obtain ⟨hrlen, hrtreelen, hrnode, hrmem, hrge, hrzero⟩ :=
      reconstruct_spec m t1 (leaves t) ht1len (by rw [hdlen, ht1L]; omega)
    rw [ht1L] at hrlen
    rw [hlo1] at hrnode hrmem hrge
    rw [hdlen] at hrmem hrge
    rw [ht1tree] at hrtreelen
    have hXlen : (reconstruct m t1 (leaves t)).len = L := hrlen
    have hloR : leafOffset (reconstruct m t1 (leaves t)) = nextPow2 L := by
      simp only [leafOffset, hXlen]
    have hXtreelen : (reconstruct m t1 (leaves t)).tree.length = capacity L := by
      rw [hrtreelen, List.length_append, List.length_replicate]
      omega
    -- any leaf slot of `t1` past the saved data holds the identity
    have hid : ∀ k, k < nextPow2 L →
        t1.tree.getD (nextPow2 L + k) m.identity = m.identity := by
      intro k hk
      rw [ht1tree, getD_append_right _ _ _ _ (by omega),
        getD_replicate _ _ _ _ (by simp only [capacity]; omega)]
    refine ⟨⟨?_, ?_, ?_, ?_⟩, ?_, ?_, ?_⟩
    · left
      rw [hXtreelen, hXlen]
    · intro i h1 h2
      rw [hloR] at h2
      exact hrnode i h1 h2
    · intro j hj1 hj2
      have hj1' : L ≤ j := by rw [hXlen] at hj1; exact hj1
      rw [hloR] at hj2 ⊢
      rw [hrge j (by omega)]
      exact hid j hj2
    · rw [hrzero, ht1tree]
      rcases hwf.len_eq with hnorm | ⟨hnil, _⟩
      · rw [getD_append_left _ _ _ _ ?_]
        · exact hwf.slot0
        · simp only [capacity] at hnorm
          have := nextPow2_pos t.len
          omega
      · rw [hnil, List.nil_append,
          getD_replicate _ _ _ _
            (by simp only [List.length_nil, Nat.sub_zero, capacity]; exact by have := nextPow2_pos L; omega)]
    · exact hrlen
    · exact hXtreelen
    · -- leaf slice: old leaves then identity padding up to `L`
      have hklen : (leaves (reconstruct m t1 (leaves t))).length = L := by
        rw [length_leaves, hXlen, hXtreelen, hloR]
        have hc : capacity L = 2 * nextPow2 L := rfl
        omega
      apply list_ext_getD m.identity
      · rw [hklen, List.length_append, List.length_replicate, hdlen]
        omega
      · intro k hk
        rw [hklen] at hk
        have hlhs : (leaves (reconstruct m t1 (leaves t))).getD k m.identity
            = (reconstruct m t1 (leaves t)).tree.getD (nextPow2 L + k) m.identity := by
          rw [leaves_getD k m.identity (by rw [hXlen]; exact hk), hloR]
        rw [hlhs]
        rcases Nat.lt_or_ge k t.len with hklt | hkge
        · rw [hrmem k hklt, getD_append_left _ _ _ _ (by omega),
            leaves_getD k m.identity hklt]
        · rw [hrge k hkge, hid k (by omega),
            getD_append_right _ _ _ _ (by omega), hdlen,
            getD_replicate _ _ _ _ (by omega)]

end SegmentTree

namespace SegmentTree

variable {M : Type}

theorem length_updatePathGo (op : M → M → M) (d : M) :
    ∀ fuel (a : List M) (node : Nat), (updatePathGo op d fuel a node).length = a.length := by
  intro fuel
  induction fuel with
  | zero => intro a node; rfl
  | succ fuel ih =>
    intro a node
    unfold updatePathGo
    split
    · rw [ih, List.length_set]
    · rfl

theorem div_pow_step (node : Nat) {k : Nat} (hk : 0 < k) :
    node / 2 ^ k = (node / 2) / 2 ^ (k - 1) := by
  rw [Nat.div_div_eq_div_mul]
  congr 1
  rw [← Nat.pow_succ']
  congr 1
  omega

theorem updatePathGo_frame (op : M → M → M) (d d' : M) :
    ∀ fuel (a : List M) (node c : Nat), (∀ k, 0 < k → node / 2 ^ k ≠ c) →
      (updatePathGo op d fuel a node).getD c d' = a.getD c d' := by
  intro fuel
  induction fuel with
  | zero => intro a node c _; rfl
  | succ fuel ih =>
    intro a node c hc
    unfold updatePathGo
    split
    · rw [ih]
      · refine getD_set_ne _ _ _ ?_
        have := hc 1 (by omega)
        simpa using this
      · intro k hk
        have h1 := hc (k + 1) (by omega)
        rw [div_pow_step node (k := k + 1) (by omega)] at h1
        simpa using h1
    · rfl

theorem updatePathGo_zero (op : M → M → M) (d d' : M) :
    ∀ fuel (a : List M) (node : Nat),
      (updatePathGo op d fuel a node).getD 0 d' = a.getD 0 d' := by
  intro fuel
  induction fuel with
  | zero => intro a node; rfl
  | succ fuel ih =>
    intro a node
    unfold updatePathGo
    split
    · rw [ih, getD_set_ne _ _ _ (by omega)]
    · rfl


theorem updatePathGo_restore (op : M → M → M) (d : M) (P : Nat → Prop) :
    ∀ fuel (a : List M) (node : Nat), node ≤ fuel → node < a.length →
      (∀ j, P j → 1 ≤ j → (∀ k, 0 < k → node / 2 ^ k ≠ j) → NodeEqL op d a j) →
      ∀ j, P j → 1 ≤ j → NodeEqL op d (updatePathGo op d fuel a node) j := by
  intro fuel
  induction fuel with
  | zero =>
    intro a node hle _ H j hP hj
    have hnode : node = 0 := by omega
    refine H j hP hj ?_
    intro k _
    rw [hnode, Nat.zero_div]
    omega
  | succ fuel ih =>
    intro a node hle hlen H j hP hj
    unfold updatePathGo
    split
    · rename_i h2
      refine ih
        (a.set (node / 2) (op (a.getD (2 * (node / 2)) d) (a.getD (2 * (node / 2) + 1) d)))
        (node / 2) (by omega) (by rw [List.length_set]; omega) ?_ j hP hj
      intro j' hP' hj' hanc'
      by_cases hjp : j' = node / 2
      · subst hjp
        unfold NodeEqL
        rw [getD_set_self _ _ _ _ (by omega),
          getD_set_ne _ _ _ (by omega), getD_set_ne _ _ _ (by omega)]
      · have hanc : ∀ k, 0 < k → node / 2 ^ k ≠ j' := by
          intro k hk
          rw [div_pow_step node hk]
          rcases Nat.eq_or_lt_of_le hk with h1 | h1
          · rw [← h1]
            simpa using fun h => hjp h.symm
          · exact hanc' (k - 1) (by omega)
        have hn := H j' hP' hj' hanc
        unfold NodeEqL at hn ⊢
        have hne1 : node / 2 ≠ j' := fun h => hjp h.symm
        have hne2 : node / 2 ≠ 2 * j' := by
          intro heq
          refine hanc' 1 (by omega) ?_
          rw [pow_one]
          omega
        have hne3 : node / 2 ≠ 2 * j' + 1 := by
          intro heq
          refine hanc' 1 (by omega) ?_
          rw [pow_one]
          omega
        rw [getD_set_ne _ _ _ hne1, getD_set_ne _ _ _ hne2, getD_set_ne _ _ _ hne3]
        exact hn
    · rename_i h2
      refine H j hP hj ?_
      intro k hk
      have h2k : 2 ≤ 2 ^ k := by
        calc 2 = 2 ^ 1 := by norm_num
          _ ≤ 2 ^ k := Nat.pow_le_pow_right (by omega) (by omega)
      have : node / 2 ^ k = 0 := Nat.div_eq_of_lt (by omega)
      omega

theorem updateWith_pos (m : MonoidOp M) (t : SegmentTree M) (i : Nat) (f : M → M)
    (hi : i < t.len) :
    updateWith m t i f =
      (⟨updatePathGo m.op m.identity (t.leafOffset + i)
          (t.tree.set (t.leafOffset + i) (f (t.tree.getD (t.leafOffset + i) m.identity)))
          (t.leafOffset + i), t.len⟩,
        some (t.tree.getD (t.leafOffset + i) m.identity)) := by
  simp [updateWith, hi]

theorem updateWith_neg (m : MonoidOp M) (t : SegmentTree M) (i : Nat) (f : M → M)
    (hi : ¬ i < t.len) : updateWith m t i f = (t, none) := by
  simp [updateWith, hi]

/-- What `update_with` does: the invariant and `len` are preserved, the return
value is the old leaf value for an in-range index and `none` otherwise, and the
leaf slice gets `f old` written at position `i` (a no-op out of range). -/
theorem updateWith_spec (m : MonoidOp M) (t : SegmentTree M) (i : Nat) (f : M → M)
    (hwf : Wf m t) :
    Wf m (updateWith m t i f).1 ∧
    (updateWith m t i f).1.len = t.len ∧
    (updateWith m t i f).2
      = (if i < t.len then some (t.tree.getD (leafOffset t + i) m.identity) else none) ∧
    leaves (updateWith m t i f).1
      = (if i < t.len
          then (leaves t).set i (f (t.tree.getD (leafOffset t + i) m.identity))
          else leaves t) := by
  by_cases hi : i < t.len
  · have hnorm : t.tree.length = capacity t.len := by
      rcases hwf.len_eq with h | ⟨_, h0⟩
      · exact h
      · omega
    have hlenlo : t.len ≤ leafOffset t := len_le_leafOffset t
    have hcap2 : capacity t.len = 2 * leafOffset t := rfl
    have hnodelt : leafOffset t + i < t.tree.length := by omega
    rw [updateWith_pos m t i f hi]
    set old := t.tree.getD (t.leafOffset + i) m.identity with hold
    set a0 := t.tree.set (t.leafOffset + i) (f old) with ha0
    set aR := updatePathGo m.op m.identity (t.leafOffset + i) a0 (t.leafOffset + i)
      with haR
    have ha0len : a0.length = t.tree.length := List.length_set _ _ _
    have haRlen : aR.length = t.tree.length := by
      rw [haR, length_updatePathGo, ha0len]
    have hanc_hi : ∀ c, leafOffset t ≤ c → c ≠ leafOffset t + i →
        aR.getD c m.identity = t.tree.getD c m.identity := by
      intro c hc hne
      rw [haR, updatePathGo_frame]
      · rw [ha0, getD_set_ne _ _ _ (fun h => hne h.symm)]
      · intro k hk
        have h2k : 2 ≤ 2 ^ k := by
          calc 2 = 2 ^ 1 := by norm_num
            _ ≤ 2 ^ k := Nat.pow_le_pow_right (by omega) (by omega)
        have hdiv : (leafOffset t + i) / 2 ^ k ≤ (leafOffset t + i) / 2 :=
          Nat.div_le_div_left h2k (by omega)
        have : (leafOffset t + i) / 2 < leafOffset t := by omega
        omega
    have hleafi : aR.getD (leafOffset t + i) m.identity = f old := by
      rw [haR, updatePathGo_frame]
      · rw [ha0, getD_set_self _ _ _ _ hnodelt]
      · intro k hk
        have h2k : 2 ≤ 2 ^ k := by
          calc 2 = 2 ^ 1 := by norm_num
            _ ≤ 2 ^ k := Nat.pow_le_pow_right (by omega) (by omega)
        have hpos : 0 < leafOffset t + i := by
          have := leafOffset_pos t
          omega
        have : (leafOffset t + i) / 2 ^ k < leafOffset t + i :=
          Nat.div_lt_self hpos (by omega)
        omega
    have hwfres : Wf m (⟨aR, t.len⟩ : SegmentTree M) := by
      refine ⟨Or.inl (by rw [haRlen, hnorm]), ?_, ?_, ?_⟩
      · intro j h1 h2
        have h2' : j < leafOffset t := h2
        show NodeEqL m.op m.identity aR j
        rw [haR]
        refine updatePathGo_restore m.op m.identity (fun j => j < leafOffset t)
          _ a0 _ (Nat.le_refl _) (by rw [ha0len]; omega) ?_ j h2' h1
        intro j' hP' hj' hanc'
        have hn := hwf.node j' hj' hP'
        unfold NodeEqL at hn ⊢
        have hne1 : t.leafOffset + i ≠ j' := by omega
        have hne2 : t.leafOffset + i ≠ 2 * j' := by
          intro heq
          refine hanc' 1 (by omega) ?_
          rw [pow_one]
          omega
        have hne3 : t.leafOffset + i ≠ 2 * j' + 1 := by
          intro heq
          refine hanc' 1 (by omega) ?_
          rw [pow_one]
          omega
        rw [ha0, getD_set_ne _ _ _ hne1, getD_set_ne _ _ _ hne2,
          getD_set_ne _ _ _ hne3]
        exact hn
      · intro j hj1 hj2
        have hj1' : t.len ≤ j := hj1
        have hj2' : j < leafOffset t := hj2
        show aR.getD (leafOffset t + j) m.identity = m.identity
        rw [hanc_hi (leafOffset t + j) (by omega) (by omega)]
        exact hwf.padding j hj1' hj2'
      · show aR.getD 0 m.identity = m.identity
        rw [haR, updatePathGo_zero, ha0, getD_set_ne _ _ _ (by
          have := leafOffset_pos t
          omega)]
        exact hwf.slot0
    refine ⟨hwfres, rfl, by simp [hi], ?_⟩
    rw [if_pos hi]
    have hlv : (leaves t).length = t.len := length_leaves_wf hwf
    apply list_ext_getD m.identity
    · rw [length_leaves, List.length_set, hlv]
      show min t.len ((⟨aR, t.len⟩ : SegmentTree M).tree.length
        - leafOffset (⟨aR, t.len⟩ : SegmentTree M)) = t.len
      have h1 : (⟨aR, t.len⟩ : SegmentTree M).tree.length = 2 * leafOffset t := by
        show aR.length = 2 * leafOffset t
        omega
      have h2 : leafOffset (⟨aR, t.len⟩ : SegmentTree M) = leafOffset t := rfl
      rw [h1, h2]
      omega
    · intro k hk
      have hk' : k < t.len := by
        rw [length_leaves] at hk
        have h1 : (⟨aR, t.len⟩ : SegmentTree M).tree.length = 2 * leafOffset t := by
          show aR.length = 2 * leafOffset t
          omega
        have h2 : leafOffset (⟨aR, t.len⟩ : SegmentTree M) = leafOffset t := rfl
        rw [h1, h2] at hk
        have h3 : (⟨aR, t.len⟩ : SegmentTree M).len = t.len := rfl
        rw [h3] at hk
        omega
      have hlhs : (leaves (⟨aR, t.len⟩ : SegmentTree M)).getD k m.identity
          = aR.getD (leafOffset t + k) m.identity :=
        leaves_getD k m.identity hk'
      rw [hlhs]
      by_cases hki : k = i
      · subst hki
        rw [hleafi, getD_set_self _ _ _ _ (by omega)]
      · rw [hanc_hi (leafOffset t + k) (by omega) (by omega),
          getD_set_ne _ _ _ (fun h => hki h.symm),
          leaves_getD k m.identity hk']
  · rw [updateWith_neg m t i f hi]
    exact ⟨hwf, rfl, by simp [hi], by simp [hi]⟩

end SegmentTree

namespace SegmentTree

variable {M : Type}

theorem set_append_last (l : List M) (y x : M) : (l ++ [y]).set l.length x = l ++ [x] := by
  induction l with
  | nil => rfl
  | cons a l ih => simp [List.set, ih]

/-- What `push` does: the invariant is preserved, the length grows by one, and
the new element becomes the last leaf. -/
theorem push_spec (m : MonoidOp M) (t : SegmentTree M) (x : M) (hwf : Wf m t) :
    Wf m (push m t x) ∧ (push m t x).len = t.len + 1 ∧
    leaves (push m t x) = leaves t ++ [x] := by
  obtain ⟨hwf1, hlen1, htl1, hlv1⟩ :=
    resizeUpto_spec m t (t.len + 1) hwf (capacity_mono (by omega))
  have hmax : max (t.len + 1) t.len = t.len + 1 := Nat.max_eq_left (by omega)
  rw [hmax] at hlen1 htl1 hlv1
  rw [Nat.add_sub_cancel_left, List.replicate_one] at hlv1
  set t1 := resizeUpto m t (t.len + 1) with ht1
  have hlv : (leaves t).length = t.len := length_leaves_wf hwf
  obtain ⟨hwf2, hlen2, _, hlv2⟩ := updateWith_spec m t1 (t1.len - 1) (fun _ => x) hwf1
  have hidx : t1.len - 1 = t.len := by omega
  have hlt : t1.len - 1 < t1.len := by omega
  rw [if_pos hlt] at hlv2
  have hpush : push m t x = (updateWith m t1 (t1.len - 1) fun _ => x).1 := rfl
  refine ⟨?_, ?_, ?_⟩
  · rw [hpush]
    exact hwf2
  · rw [hpush, hlen2, hlen1]
  · rw [hpush, hlv2, hlv1, hidx, ← hlv, set_append_last]

/-- Folding `push` over a list of new elements appends them to the leaves. -/
theorem pushAll_spec (m : MonoidOp M) (xs : List M) :
    ∀ t : SegmentTree M, Wf m t →
      Wf m (xs.foldl (fun s x => push m s x) t) ∧
      (xs.foldl (fun s x => push m s x) t).len = t.len + xs.length ∧
      leaves (xs.foldl (fun s x => push m s x) t) = leaves t ++ xs := by
  induction xs with
  | nil =>
    intro t hwf
    exact ⟨hwf, by simp, by simp⟩
  | cons x xs ih =>
    intro t hwf
    obtain ⟨hwf1, hlen1, hlv1⟩ := push_spec m t x hwf
    obtain ⟨hwf2, hlen2, hlv2⟩ := ih (push m t x) hwf1
    refine ⟨hwf2, ?_, ?_⟩
    · rw [List.foldl_cons] at *
      rw [hlen2, hlen1]
      simp
      omega
    · rw [List.foldl_cons] at *
      rw [hlv2, hlv1]
      simp

theorem new_wf (m : MonoidOp M) : Wf m (new M) := by
  refine ⟨Or.inr ⟨rfl, rfl⟩, ?_, ?_, ?_⟩
  · intro i h1 h2
    have : leafOffset (new M) = 1 := rfl
    omega
  · intro j hj1 hj2
    have h1 : leafOffset (new M) = 1 := rfl
    rw [h1]
    have hj : j = 0 := by
      rw [h1] at hj2
      omega
    subst hj
    rfl
  · rfl

/-- The common final step of `construct` and of the bulk branch of
`extend_with_length`: rebuilding a well-formed, full-capacity tree from exactly
`len` data items yields a well-formed tree whose leaves are the data. -/
theorem construct_like_spec (m : MonoidOp M) (t1 : SegmentTree M) (d : List M)
    (hwf1 : Wf m t1) (hlen1 : t1.tree.length = capacity t1.len) (hd : d.length = t1.len) :
    Wf m (reconstruct m t1 d) ∧ (reconstruct m t1 d).len = t1.len ∧
    leaves (reconstruct m t1 d) = d := by
  obtain ⟨hrlen, hrtreelen, hrnode, hrmem, hrge, hrzero⟩ :=
    reconstruct_spec m t1 d hlen1 (by omega)
  have hcap2 : capacity t1.len = 2 * leafOffset t1 := rfl
  have hlenlo : t1.len ≤ leafOffset t1 := len_le_leafOffset t1
  have hloR : leafOffset (reconstruct m t1 d) = leafOffset t1 := by
    simp only [leafOffset, reconstruct]
  refine ⟨⟨?_, ?_, ?_, ?_⟩, hrlen, ?_⟩
  · left
    rw [hrtreelen, hrlen, hlen1]
  · intro i h1 h2
    rw [hloR] at h2
    exact hrnode i h1 h2
  · intro j hj1 hj2
    have hj1' : t1.len ≤ j := by rw [hrlen] at hj1; exact hj1
    rw [hloR] at hj2 ⊢
    rw [hrge j (by omega)]
    exact hwf1.padding j hj1' hj2
  · rw [hrzero]
    exact hwf1.slot0
  · apply list_ext_getD m.identity
    · rw [length_leaves, hrlen, hrtreelen, hlen1, hloR, hcap2, hd]
      omega
    · intro k hk
      have hk' : k < t1.len := by
        rw [length_leaves, hrlen, hrtreelen, hlen1, hloR, hcap2] at hk
        omega
      have hlhs : (leaves (reconstruct m t1 d)).getD k m.identity
          = (reconstruct m t1 d).tree.getD (leafOffset t1 + k) m.identity := by
        rw [leaves_getD k m.identity (by rw [hrlen]; exact hk'), hloR]
      rw [hlhs, hrmem k (by omega)]

/-- What building from a vector does: a well-formed tree whose length is the
input length and whose leaves are exactly the input. -/
theorem fromVec_spec (m : MonoidOp M) (v : List M) :
    Wf m (fromVec m v) ∧ (fromVec m v).len = v.length ∧ leaves (fromVec m v) = v := by
  obtain ⟨hwf1, hlen1, htl1, _⟩ :=
    resizeUpto_spec m (new M) v.length (new_wf m) (capacity_mono (Nat.zero_le _))
  have hmax : max v.length (new M).len = v.length := by
    show max v.length 0 = v.length
    exact Nat.max_zero v.length
  rw [hmax] at hlen1 htl1
  have h := construct_like_spec m (resizeUpto m (new M) v.length) v hwf1
    (by rw [htl1, hlen1]) (by rw [hlen1])
  refine ⟨h.1, ?_, h.2.2⟩
  show (reconstruct m (resizeUpto m (new M) v.length) v).len = v.length
  rw [h.2.1, hlen1]

/-- What `extend_from_slice` does (and `Extend::extend` with an exact size
hint): the invariant is preserved and the new elements are appended. -/
theorem extendFromSlice_spec (m : MonoidOp M) (t : SegmentTree M) (xs : List M)
    (hwf : Wf m t) :
    Wf m (extendFromSlice m t xs) ∧
    (extendFromSlice m t xs).len = t.len + xs.length ∧
    leaves (extendFromSlice m t xs) = leaves t ++ xs := by
  have hlv : (leaves t).length = t.len := length_leaves_wf hwf
  rw [extendFromSlice, extendWithLength]
  by_cases hov : overCapacity t xs.length
  · rw [if_pos hov]
    obtain ⟨hwf1, hlen1, htl1, _⟩ :=
      resizeUpto_spec m t (t.len + xs.length) hwf (capacity_mono (by omega))
    have hmax : max (t.len + xs.length) t.len = t.len + xs.length :=
      Nat.max_eq_left (by omega)
    rw [hmax] at hlen1 htl1
    have h := construct_like_spec m (resizeUpto m t (t.len + xs.length))
      (leaves t ++ xs) hwf1 (by rw [htl1, hlen1])
      (by rw [List.length_append, hlv, hlen1])
    refine ⟨h.1, ?_, h.2.2⟩
    rw [h.2.1, hlen1]
  · rw [if_neg hov]
    have hxs : (xs ++ List.replicate (xs.length - xs.length) m.identity).take xs.length
        = xs := by
      simp
    rw [hxs]
    exact pushAll_spec m xs t hwf

/-- Every tree reachable through the public API is well-formed. -/
theorem reachable_wf (m : MonoidOp M) {t : SegmentTree M} (h : Reachable m t) :
    Wf m t := by
  induction h with
  | new => exact new_wf m
  | fromVec v => exact (fromVec_spec m v).1
  | push x _ ih => exact (push_spec m _ x ih).1
  | extendSlice xs _ ih => exact (extendFromSlice_spec m _ xs ih).1
  | updateWith i f _ ih => exact (updateWith_spec m _ i f ih).1
  | update i x _ ih => exact (updateWith_spec m _ i (fun _ => x) ih).1

end SegmentTree

namespace SegmentTree

variable {M : Type}

theorem wf_length_of_pos {m : MonoidOp M} {t : SegmentTree M} (hwf : Wf m t)
    (h : 0 < t.len) : t.tree.length = capacity t.len := by
  rcases hwf.len_eq with h1 | ⟨_, h2⟩
  · exact h1
  · omega

/-- Two well-formed full-capacity trees with the same length and the same
leaves are equal: the node equations determine every internal cell, the
padding and slot `0` hold identities, and the leaves agree. -/
theorem wf_tree_ext (m : MonoidOp M) (s t : SegmentTree M) (hs : Wf m s) (ht : Wf m t)
    (hlen : s.len = t.len)
    (hs2 : s.tree.length = capacity s.len) (ht2 : t.tree.length = capacity t.len)
    (hleaves : ∀ k, k < s.len →
      s.tree.getD (leafOffset s + k) m.identity
        = t.tree.getD (leafOffset t + k) m.identity) :
    s = t := by
  have hlo : leafOffset s = leafOffset t := by simp only [leafOffset, hlen]
  have hcap : s.tree.length = t.tree.length := by rw [hs2, ht2, hlen]
  have hcap2 : s.tree.length = 2 * leafOffset s := hs2
  have hlenlo : s.len ≤ leafOffset s := len_le_leafOffset s
  have key : ∀ dk i, s.tree.length ≤ i + dk →
      s.tree.getD i m.identity = t.tree.getD i m.identity := by
    intro dk
    induction dk with
    | zero =>
      intro i hi
      rw [getD_of_length_le _ _ _ (by omega), getD_of_length_le _ _ _ (by omega)]
    | succ dk ih =>
      intro i hi
      rcases Nat.lt_or_ge i (leafOffset s) with hilo | hilo
      · rcases Nat.eq_zero_or_pos i with h0 | hpos
        · subst h0
          rw [hs.slot0, ht.slot0]
        · have h1 := hs.node i hpos hilo
          have h2 := ht.node i hpos (hlo ▸ hilo)
          unfold NodeEqL at h1 h2
          rw [h1, h2, ih (2 * i) (by omega), ih (2 * i + 1) (by omega)]
      · rcases Nat.lt_or_ge i s.tree.length with hilen | hilen
        · have hk : i = leafOffset s + (i - leafOffset s) := by omega
          have hklo : i - leafOffset s < leafOffset s := by omega
          rcases Nat.lt_or_ge (i - leafOffset s) s.len with hkl | hkl
          · rw [hk, hleaves (i - leafOffset s) hkl, hlo]
          · rw [hk, hs.padding _ hkl hklo]
            rw [hk, hlo] at *
            rw [ht.padding _ (by omega) (by rw [← hlo]; omega)]
        · rw [getD_of_length_le _ _ _ (by omega), getD_of_length_le _ _ _ (by omega)]
  refine segTree_eq ?_ hlen
  apply list_ext_getD m.identity hcap
  intro k hk
  exact key (s.tree.length - k) k (by omega)

theorem combine_len_zero (m : MonoidOp M) (t : SegmentTree M) (h : t.len = 0)
    (r : RangeArg) : combine m t r = m.identity := by
  have he : (indices t r).2 = 0 := by
    rcases r with ⟨rs, re⟩
    cases re <;> simp [indices, h]
  rw [combine, combineWindow, he]
  exact combineGo_of_ge _ _ _ _ _ _ _ (by omega)

theorem combineGo_succ (op : M → M → M) (d : M) (a : List M) (fuel left right : Nat)
    (res : M) (h : left < right) :
    combineGo op d a (fuel + 1) left right res =
      combineGo op d a fuel ((if left % 2 = 1 then left + 1 else left) / 2)
        ((if right % 2 = 1 then right - 1 else right) / 2)
        (if right % 2 = 1
          then op (a.getD (if right % 2 = 1 then right - 1 else right) d)
            (if left % 2 = 1 then op res (a.getD left d) else res)
          else (if left % 2 = 1 then op res (a.getD left d) else res)) := by
  conv_lhs => rw [combineGo]
  rw [if_pos h]

/-- `combine` on the singleton window `[k, k+1)` returns the leaf value (for a
lawful monoid: the single loop iteration folds it against the identity). -/
theorem combineWindow_single (m : MonoidOp M) (hm : Lawful m) (t : SegmentTree M)
    (k : Nat) :
    combineWindow m t k (k + 1) = t.tree.getD (t.leafOffset + k) m.identity := by
  unfold combineWindow
  have hfuel : t.leafOffset + (k + 1) = (t.leafOffset + k) + 1 := by omega
  rw [hfuel, combineGo_succ _ _ _ _ _ _ _ (by omega)]
  by_cases hpar : (t.leafOffset + k) % 2 = 1
  · have hpar2 : ¬ (t.leafOffset + k + 1) % 2 = 1 := by omega
    rw [if_pos hpar, if_neg hpar2, if_neg hpar2, if_pos hpar,
      combineGo_of_ge _ _ _ _ _ _ _ (by omega), hm.id_left]
  · have hpar2 : (t.leafOffset + k + 1) % 2 = 1 := by omega
    rw [if_neg hpar, if_pos hpar2, if_pos hpar2, if_neg hpar, Nat.add_sub_cancel,
      combineGo_of_ge _ _ _ _ _ _ _ (by omega), hm.id_right]

/-- Building in bulk and building by successive pushes produce the same tree
state (for a nonempty input; the empty input leaves `new()` untouched on the
push side while `from(vec![])` allocates the two-slot buffer). -/
theorem pushAll_eq_fromVec (m : MonoidOp M) (v : List M) (hv : v ≠ []) :
    v.foldl (fun s x => push m s x) (new M) = fromVec m v := by
  obtain ⟨hwfP, hlenP, hlvP⟩ := pushAll_spec m v (new M) (new_wf m)
  obtain ⟨hwfV, hlenV, hlvV⟩ := fromVec_spec m v
  have hvpos : 0 < v.length := List.length_pos.mpr hv
  have hlvnew : leaves (new M) = [] := rfl
  have hnew0 : (new M).len = 0 := rfl
  have hlenP' : (v.foldl (fun s x => push m s x) (new M)).len = v.length := by
    rw [hlenP, hnew0, Nat.zero_add]
  have hlvP' : leaves (v.foldl (fun s x => push m s x) (new M)) = v := by
    rw [hlvP, hlvnew, List.nil_append]
  apply wf_tree_ext m _ _ hwfP hwfV (by rw [hlenP', hlenV])
    (wf_length_of_pos hwfP (by omega)) (wf_length_of_pos hwfV (by omega))
  intro k hk
  have hk' : k < v.length := by rw [hlenP'] at hk; exact hk
  have h1 := leaves_getD (t := v.foldl (fun s x => push m s x) (new M)) k m.identity hk
  have h2 := leaves_getD (t := fromVec m v) k m.identity (by rw [hlenV]; exact hk')
  rw [← h1, ← h2, hlvP', hlvV]

end SegmentTree

namespace SegmentTree

variable {M : Type}

theorem range'_split (s mid e : Nat) (h1 : s ≤ mid) (h2 : mid ≤ e) :
    List.range' s (e - s) = List.range' s (mid - s) ++ List.range' mid (e - mid) := by
  have h := List.range'_append s (mid - s) (e - mid) 1
  rw [one_mul, show s + (mid - s) = mid by omega,
    show (e - mid) + (mid - s) = e - s by omega] at h
  exact h.symm

theorem specFindLeft_single (q : Nat → Bool) (s : Nat) :
    specFindLeft q s (s + 1) = if q s then some s else none := by
  rw [specFindLeft, show s + 1 - s = 1 by omega]
  cases hq : q s <;> simp [List.range', List.find?, hq]

theorem specFindRight_single (q : Nat → Bool) (s : Nat) :
    specFindRight q s (s + 1) = if q s then some s else none := by
  rw [specFindRight, show s + 1 - s = 1 by omega]
  cases hq : q s <;> simp [List.range', List.find?, hq]

theorem bisectGoL_spec (m : MonoidOp M) (t : SegmentTree M) (p : M → Bool) :
    ∀ fuel s e, s < e → e - s ≤ fuel + 1 → detects m t p s e →
      bisectGoL m t p fuel s e = specFindLeft (fun k => p (leafAt m t k)) s e := by
  intro fuel
  induction fuel with
  | zero =>
    intro s e hse hwid _
    have he : e = s + 1 := by omega
    subst he
    rw [specFindLeft_single]
    rfl
  | succ fuel ih =>
    intro s e hse hwid hdet
    by_cases hgap : 1 < e - s
    · have hmid1 : s < (s + e) / 2 := by omega
      have hmid2 : (s + e) / 2 < e := by omega
      have hdet1 : detects m t p s ((s + e) / 2) := fun b hb a hab hsa =>
        hdet b (by omega) a hab hsa
      have hdet2 : detects m t p ((s + e) / 2) e := fun b hb a hab ha =>
        hdet b hb a hab (by omega)
      have hunfold : bisectGoL m t p (fuel + 1) s e
          = if p (combineWindow m t s ((s + e) / 2))
            then bisectGoL m t p fuel s ((s + e) / 2)
            else bisectGoL m t p fuel ((s + e) / 2) e := by
        conv_lhs => rw [bisectGoL]
        rw [if_pos hgap]
      rcases hc : p (combineWindow m t s ((s + e) / 2)) with hc1 | hc1
      · rw [hunfold, if_neg (by simp [hc]), ih ((s + e) / 2) e hmid2 (by omega) hdet2,
          specFindLeft, specFindLeft,
          range'_split s ((s + e) / 2) e (by omega) (by omega), List.find?_append]
        have hnone : (List.range' s ((s + e) / 2 - s)).find? (fun k => p (leafAt m t k))
            = none := by
          rw [List.find?_eq_none]
          intro x hx hpx
          rw [List.mem_range'_1] at hx
          have : p (combineWindow m t s ((s + e) / 2)) = true :=
            (hdet ((s + e) / 2) (by omega) s hmid1 (Nat.le_refl s)).mpr
              ⟨x, by omega, by omega, hpx⟩
          rw [hc] at this
          exact Bool.false_ne_true this
        rw [hnone]
        simp
      · rw [hunfold, if_pos hc, ih s ((s + e) / 2) hmid1 (by omega) hdet1,
          specFindLeft, specFindLeft,
          range'_split s ((s + e) / 2) e (by omega) (by omega), List.find?_append]
        obtain ⟨k0, hk0b, hk0a, hk0p⟩ :=
          (hdet ((s + e) / 2) (by omega) s hmid1 (Nat.le_refl s)).mp hc
        have hsome : ((List.range' s ((s + e) / 2 - s)).find?
            (fun k => p (leafAt m t k))).isSome := by
          rw [List.find?_isSome]
          exact ⟨k0, by rw [List.mem_range'_1]; omega, hk0p⟩
        exact (Option.or_of_isSome hsome).symm
    · have he : e = s + 1 := by omega
      subst he
      have hunfold : bisectGoL m t p (fuel + 1) s (s + 1)
          = if p (t.tree.getD (t.leafOffset + s) m.identity) then some s else none := by
        conv_lhs => rw [bisectGoL]
        rw [if_neg hgap]
      rw [hunfold, specFindLeft_single]
      rfl

theorem bisectGoR_spec (m : MonoidOp M) (t : SegmentTree M) (p : M → Bool) :
    ∀ fuel s e, s < e → e - s ≤ fuel + 1 → detects m t p s e →
      bisectGoR m t p fuel s e = specFindRight (fun k => p (leafAt m t k)) s e := by
  intro fuel
  induction fuel with
  | zero =>
    intro s e hse hwid _
    have he : e = s + 1 := by omega
    subst he
    rw [specFindRight_single]
    rfl
  | succ fuel ih =>
    intro s e hse hwid hdet
    by_cases hgap : 1 < e - s
    · have hmid1 : s < (s + e) / 2 := by omega
      have hmid2 : (s + e) / 2 < e := by omega
      have hdet1 : detects m t p s ((s + e) / 2) := fun b hb a hab hsa =>
        hdet b (by omega) a hab hsa
      have hdet2 : detects m t p ((s + e) / 2) e := fun b hb a hab ha =>
        hdet b hb a hab (by omega)
      have hunfold : bisectGoR m t p (fuel + 1) s e
          = if p (combineWindow m t ((s + e) / 2) e)
            then bisectGoR m t p fuel ((s + e) / 2) e
            else bisectGoR m t p fuel s ((s + e) / 2) := by
        conv_lhs => rw [bisectGoR]
        rw [if_pos hgap]
      rcases hc : p (combineWindow m t ((s + e) / 2) e) with hc1 | hc1
      · rw [hunfold, if_neg (by simp [hc]), ih s ((s + e) / 2) hmid1 (by omega) hdet1,
          specFindRight, specFindRight,
          range'_split s ((s + e) / 2) e (by omega) (by omega), List.reverse_append,
          List.find?_append]
        have hnone : ((List.range' ((s + e) / 2) (e - (s + e) / 2)).reverse.find?
            (fun k => p (leafAt m t k))) = none := by
          rw [List.find?_eq_none]
          intro x hx hpx
          rw [List.mem_reverse, List.mem_range'_1] at hx
          have : p (combineWindow m t ((s + e) / 2) e) = true :=
            (hdet e (Nat.le_refl e) ((s + e) / 2) hmid2 (by omega)).mpr
              ⟨x, by omega, by omega, hpx⟩
          rw [hc] at this
          exact Bool.false_ne_true this
        rw [hnone]
        simp
      · rw [hunfold, if_pos hc, ih ((s + e) / 2) e hmid2 (by omega) hdet2,
          specFindRight, specFindRight,
          range'_split s ((s + e) / 2) e (by omega) (by omega), List.reverse_append,
          List.find?_append]
        obtain ⟨k0, hk0b, hk0a, hk0p⟩ :=
          (hdet e (Nat.le_refl e) ((s + e) / 2) hmid2 (by omega)).mp hc
        have hsome : (((List.range' ((s + e) / 2) (e - (s + e) / 2)).reverse).find?
            (fun k => p (leafAt m t k))).isSome := by
          rw [List.find?_isSome]
          refine ⟨k0, ?_, hk0p⟩
          rw [List.mem_reverse, List.mem_range'_1]
          omega
        exact (Option.or_of_isSome hsome).symm
    · have he : e = s + 1 := by omega
      subst he
      have hunfold : bisectGoR m t p (fuel + 1) s (s + 1)
          = if p (t.tree.getD (t.leafOffset + s) m.identity) then some s else none := by
        conv_lhs => rw [bisectGoR]
        rw [if_neg hgap]
      rw [hunfold, specFindRight_single]
      rfl

end SegmentTree

namespace SegmentTree

variable {M : Type}

theorem combineGoChk_isSome (op : M → M → M) (a : List M) :
    ∀ fuel left right res, right ≤ a.length ∨ right ≤ left →
      ∃ v, combineGoChk op a fuel left right res = some v := by
  intro fuel
  induction fuel with
  | zero => intro left right res _; exact ⟨res, rfl⟩
  | succ fuel ih =>
    intro left right res h
    simp only [combineGoChk]
    by_cases hlr : left < right
    · have hrlen : right ≤ a.length := by
        rcases h with h | h
        · exact h
        · omega
      rw [if_pos hlr]
      obtain ⟨r1, hr1⟩ : ∃ r1,
          (if left % 2 = 1 then (a[left]?).map (fun x => op res x) else some res)
            = some r1 := by
        by_cases hp : left % 2 = 1
        · rw [if_pos hp, List.getElem?_eq_getElem (by omega : left < a.length)]
          exact ⟨_, rfl⟩
        · rw [if_neg hp]
          exact ⟨res, rfl⟩
      rw [hr1]
      dsimp only
      obtain ⟨r2, hr2⟩ : ∃ r2,
          (if right % 2 = 1 then (a[right - 1]?).map (fun x => op x r1) else some r1)
            = some r2 := by
        by_cases hp : right % 2 = 1
        · rw [if_pos hp, List.getElem?_eq_getElem (by omega : right - 1 < a.length)]
          exact ⟨_, rfl⟩
        · rw [if_neg hp]
          exact ⟨r1, rfl⟩
      rw [hr2]
      dsimp only
      refine ih _ _ r2 (Or.inl ?_)
      have hb : (if right % 2 = 1 then right - 1 else right) ≤ right := by
        split <;> omega
      omega
    · rw [if_neg hlr]
      exact ⟨res, rfl⟩

theorem updatePathChk_isSome (op : M → M → M) :
    ∀ fuel (a : List M) (node half : Nat), a.length = 2 * half → node < a.length →
      ∃ aa, updatePathChk op fuel a node = some aa := by
  intro fuel
  induction fuel with
  | zero => intro a node half _ _; exact ⟨a, rfl⟩
  | succ fuel ih =>
    intro a node half hhalf hlen
    simp only [updatePathChk]
    by_cases h2 : 1 < node
    · rw [if_pos h2, List.getElem?_eq_getElem (by omega : 2 * (node / 2) < a.length),
        List.getElem?_eq_getElem (by omega : 2 * (node / 2) + 1 < a.length)]
      exact ih _ (node / 2) half (by rw [List.length_set]; exact hhalf)
        (by rw [List.length_set]; omega)
    · rw [if_neg h2]
      exact ⟨a, rfl⟩

theorem updateWithChk_isSome (m : MonoidOp M) (t : SegmentTree M) (i : Nat) (f : M → M)
    (hwf : Wf m t) : ∃ v, updateWithChk m t i f = some v := by
  by_cases hi : i < t.len
  · have hnorm : t.tree.length = capacity t.len := wf_length_of_pos hwf (by omega)
    have hlenlo : t.len ≤ leafOffset t := len_le_leafOffset t
    have hcap2 : capacity t.len = 2 * leafOffset t := rfl
    have hnodelt : t.leafOffset + i < t.tree.length := by
      show leafOffset t + i < t.tree.length
      omega
    rw [updateWithChk, if_pos hi]
    obtain ⟨x, hx⟩ : ∃ x, t.tree[t.leafOffset + i]? = some x :=
      ⟨_, List.getElem?_eq_getElem hnodelt⟩
    rw [hx]
    dsimp only
    obtain ⟨aa, haa⟩ := updatePathChk_isSome m.op (t.leafOffset + i)
      (t.tree.set (t.leafOffset + i) (f x)) (t.leafOffset + i) (leafOffset t)
      (by rw [List.length_set]; omega) (by rw [List.length_set]; exact hnodelt)
    rw [haa]
    exact ⟨_, rfl⟩
  · rw [updateWithChk, if_neg hi]
    exact ⟨_, rfl⟩

theorem indices_snd_le (t : SegmentTree M) (r : RangeArg) : (indices t r).2 ≤ t.len := by
  rcases r with ⟨rs, re⟩
  cases re <;> simp [indices]

theorem combineChk_isSome (m : MonoidOp M) (t : SegmentTree M) (r : RangeArg)
    (hwf : Wf m t) : ∃ v, combineChk m t r = some v := by
  rw [combineChk]
  apply combineGoChk_isSome
  have he := indices_snd_le t r
  rcases hwf.len_eq with hnorm | ⟨hnil, hzero⟩
  · left
    have hlenlo : t.len ≤ leafOffset t := len_le_leafOffset t
    have hcap2 : capacity t.len = 2 * leafOffset t := rfl
    show leafOffset t + (indices t r).2 ≤ t.tree.length
    omega
  · right
    omega

theorem bisectGoLChk_isSome (m : MonoidOp M) (t : SegmentTree M) (p : M → Bool)
    (hnorm : t.tree.length = capacity t.len) :
    ∀ fuel s e, s < e → e ≤ t.len →
      ∃ v, bisectGoLChk m t p fuel s e = some v := by
  have hlenlo : t.len ≤ leafOffset t := len_le_leafOffset t
  have hcap2 : capacity t.len = 2 * leafOffset t := rfl
  intro fuel
  induction fuel with
  | zero =>
    intro s e hse he
    simp only [bisectGoLChk]
    rw [if_neg (by omega),
      List.getElem?_eq_getElem (by
        show t.leafOffset + s < t.tree.length
        omega)]
    exact ⟨_, rfl⟩
  | succ fuel ih =>
    intro s e hse he
    simp only [bisectGoLChk]
    rw [if_neg (by omega)]
    by_cases hgap : 1 < e - s
    · rw [if_pos hgap]
      obtain ⟨v, hv⟩ := combineGoChk_isSome m.op t.tree (t.leafOffset + (s + e) / 2)
        (t.leafOffset + s) (t.leafOffset + (s + e) / 2) m.identity
        (Or.inl (by
          show t.leafOffset + (s + e) / 2 ≤ t.tree.length
          omega))
      rw [hv]
      dsimp only
      by_cases hp : p v
      · rw [if_pos hp]
        exact ih s ((s + e) / 2) (by omega) (by omega)
      · rw [if_neg hp]
        exact ih ((s + e) / 2) e (by omega) (by omega)
    · rw [if_neg hgap,
        List.getElem?_eq_getElem (by
          show t.leafOffset + s < t.tree.length
          omega)]
      exact ⟨_, rfl⟩

theorem bisectGoRChk_isSome (m : MonoidOp M) (t : SegmentTree M) (p : M → Bool)
    (hnorm : t.tree.length = capacity t.len) :
    ∀ fuel s e, s < e → e ≤ t.len →
      ∃ v, bisectGoRChk m t p fuel s e = some v := by
  have hlenlo : t.len ≤ leafOffset t := len_le_leafOffset t
  have hcap2 : capacity t.len = 2 * leafOffset t := rfl
  intro fuel
  induction fuel with
  | zero =>
    intro s e hse he
    simp only [bisectGoRChk]
    rw [if_neg (by omega),
      List.getElem?_eq_getElem (by
        show t.leafOffset + s < t.tree.length
        omega)]
    exact ⟨_, rfl⟩
  | succ fuel ih =>
    intro s e hse he
    simp only [bisectGoRChk]
    rw [if_neg (by omega)]
    by_cases hgap : 1 < e - s
    · rw [if_pos hgap]
      obtain ⟨v, hv⟩ := combineGoChk_isSome m.op t.tree (t.leafOffset + e)
        (t.leafOffset + (s + e) / 2) (t.leafOffset + e) m.identity
        (Or.inl (by
          show t.leafOffset + e ≤ t.tree.length
          omega))
      rw [hv]
      dsimp only
      by_cases hp : p v
      · rw [if_pos hp]
        exact ih ((s + e) / 2) e (by omega) (by omega)
      · rw [if_neg hp]
        exact ih s ((s + e) / 2) (by omega) (by omega)
    · rw [if_neg hgap,
        List.getElem?_eq_getElem (by
          show t.leafOffset + s < t.tree.length
          omega)]
      exact ⟨_, rfl⟩

theorem bisectLeftChk_isSome (m : MonoidOp M) (t : SegmentTree M) (r : RangeArg)
    (p : M → Bool) (hwf : Wf m t) (hse : (indices t r).1 < (indices t r).2) :
    ∃ v, bisectLeftChk m t r p = some v := by
  have he := indices_snd_le t r
  have hnorm : t.tree.length = capacity t.len := wf_length_of_pos hwf (by omega)
  exact bisectGoLChk_isSome m t p hnorm _ _ _ hse he

theorem bisectRightChk_isSome (m : MonoidOp M) (t : SegmentTree M) (r : RangeArg)
    (p : M → Bool) (hwf : Wf m t) (hse : (indices t r).1 < (indices t r).2) :
    ∃ v, bisectRightChk m t r p = some v := by
  have he := indices_snd_le t r
  have hnorm : t.tree.length = capacity t.len := wf_length_of_pos hwf (by omega)
  exact bisectGoRChk_isSome m t p hnorm _ _ _ hse he

end SegmentTree

namespace SegmentTree

variable {M : Type}

/-- Applying a sequence of updates and pushes keeps the tree well-formed and
tracks the plain-list model of the leaves. -/
theorem applyOps_spec (m : MonoidOp M) (ops : List (TreeOp M)) :
    ∀ t : SegmentTree M, Wf m t →
      Wf m (applyOps m t ops) ∧
      (applyOps m t ops).len = (modelOps (leaves t) ops).length ∧
      leaves (applyOps m t ops) = modelOps (leaves t) ops := by
  induction ops with
  | nil =>
    intro t hwf
    exact ⟨hwf, (length_leaves_wf hwf).symm, rfl⟩
  | cons o ops ih =>
    intro t hwf
    cases o with
    | update i x =>
      obtain ⟨hwf1, _, _, hlv1⟩ := updateWith_spec m t i (fun _ => x) hwf
      have happ : applyOps m t (TreeOp.update i x :: ops)
          = applyOps m (SegmentTree.update m t i x).1 ops := by
        simp [applyOps]
      have hmod : modelOps (leaves t) (TreeOp.update i x :: ops)
          = modelOps ((leaves t).set i x) ops := by
        simp [modelOps]
      have hlv : leaves (SegmentTree.update m t i x).1 = (leaves t).set i x := by
        show leaves (updateWith m t i fun _ => x).1 = (leaves t).set i x
        rw [hlv1]
        by_cases hi : i < t.len
        · rw [if_pos hi]
        · rw [if_neg hi, set_out_of_range _ _ _ (by rw [length_leaves_wf hwf]; omega)]
      rw [happ, hmod, ← hlv]
      exact ih _ hwf1
    | push x =>
      obtain ⟨hwf1, _, hlv1⟩ := push_spec m t x hwf
      have happ : applyOps m t (TreeOp.push x :: ops)
          = applyOps m (SegmentTree.push m t x) ops := by
        simp [applyOps]
      have hmod : modelOps (leaves t) (TreeOp.push x :: ops)
          = modelOps (leaves t ++ [x]) ops := by
        simp [modelOps]
      rw [happ, hmod, ← hlv1]
      exact ih _ hwf1

theorem indices_ie (t : SegmentTree M) (k : Nat) (hk : k < t.len) :
    indices t ⟨RBound.included k, RBound.excluded (k + 1)⟩ = (k, k + 1) := by
  simp only [indices]
  rw [Nat.max_eq_left (Nat.zero_le k), Nat.min_eq_left (by omega)]

/-- `combine` on the single-element range `k..k+1` for an in-range `k` is the
leaf value. -/
theorem combine_single (m : MonoidOp M) (hm : Lawful m) (t : SegmentTree M) (k : Nat)
    (hk : k < t.len) :
    combine m t ⟨RBound.included k, RBound.excluded (k + 1)⟩ = leafAt m t k := by
  rw [combine, indices_ie t k hk]
  exact combineWindow_single m hm t k

/-- `update_with` never changes `len` or the buffer size, and only the cells on
the path from the touched leaf cell to the root can change. -/
theorem updateWith_frame (m : MonoidOp M) (t : SegmentTree M) (i : Nat) (f : M → M)
    (c : Nat) (hc : ¬ PathNode (leafOffset t + i) c) :
    (updateWith m t i f).1.len = t.len ∧
    (updateWith m t i f).1.tree.length = t.tree.length ∧
    (updateWith m t i f).1.tree.getD c m.identity = t.tree.getD c m.identity := by
  by_cases hi : i < t.len
  · rw [updateWith_pos m t i f hi]
    refine ⟨rfl, ?_, ?_⟩
    · show (updatePathGo m.op m.identity _ _ _).length = t.tree.length
      rw [length_updatePathGo, List.length_set]
    · show (updatePathGo m.op m.identity _ _ _).getD c m.identity
        = t.tree.getD c m.identity
      rcases Nat.eq_zero_or_pos c with hc0 | hcpos
      · -- cell 0 is never written: the leaf write is at `leaf_offset + i ≥ 1`
        -- and the loop writes `node / 2 ≥ 1` only while `node > 1`
        subst hc0
        rw [updatePathGo_zero,
          getD_set_ne _ _ _ (by have := leafOffset_pos t; omega)]
      · have hpath : ∀ k, k ≤ leafOffset t + i → (leafOffset t + i) / 2 ^ k ≠ c := by
          intro k hk heq
          refine hc ⟨hcpos, ?_⟩
          rw [List.mem_map]
          exact ⟨k, List.mem_range.mpr (by omega), heq⟩
        have hcne : leafOffset t + i ≠ c := by
          have := hpath 0 (Nat.zero_le _)
          rw [pow_zero, Nat.div_one] at this
          exact this
        rw [updatePathGo_frame, getD_set_ne _ _ _ hcne]
        intro k hk
        rcases Nat.le_total k (leafOffset t + i) with hle | hge
        · exact hpath k hle
        · have hk0 : (leafOffset t + i) / 2 ^ k = 0 := by
            apply Nat.div_eq_of_lt
            calc leafOffset t + i < 2 ^ (leafOffset t + i) := Nat.lt_two_pow _
              _ ≤ 2 ^ k := Nat.pow_le_pow_right (by omega) (by omega)
          rw [hk0]
          omega
  · rw [updateWith_neg m t i f hi]
    exact ⟨rfl, rfl, rfl⟩

end SegmentTree

theorem sumM_lawful : Lawful sumM :=
  ⟨Nat.add_assoc, Nat.zero_add, Nat.add_zero⟩

theorem maxM_lawful : Lawful maxM :=
  ⟨Nat.max_assoc, Nat.zero_max, Nat.max_zero⟩

theorem concatM_lawful : Lawful concatM :=
  ⟨List.append_assoc, List.nil_append, List.append_nil⟩

open SegmentTree

/-- C1: the specification claims `combine(range)` equals the left-to-right fold
of the operation over the logical elements of the normalized window for every
lawful monoid. The code merges the two boundary accumulators of the classic
iterative query into one, which reorders contributions for non-commutative
monoids: on the list-concatenation monoid with leaves `[[0],[1],[2],[3]]`, the
window `1..3` yields `[2] ++ [1] = [2,1]` while the left-to-right fold of the
same window is `[1] ++ [2] = [1,2]`. This theorem evaluates both sides at that
failing input. -/
theorem claim_C1 :
    combine concatM (fromVec concatM [[0], [1], [2], [3]])
      ⟨RBound.included 1, RBound.excluded 3⟩ = [2, 1] ∧
    foldWindow concatM (fromVec concatM [[0], [1], [2], [3]]) 1 3 = [1, 2] := by
  constructor
  · decide
  · decide

/-- C2: every tree reachable through the public API (construction, `push`,
`extend`, `update`, `update_with`) over a lawful monoid satisfies the internal
node equation `tree[i] = op(tree[2i], tree[2i+1])` at every internal index and
holds the identity in every padding leaf slot. -/
theorem claim_C2 (M : Type) (m : MonoidOp M) (_hm : Lawful m) (t : SegmentTree M)
    (hR : Reachable m t) : InvariantHolds m t := by
  have hwf := reachable_wf m hR
  exact ⟨hwf.node, hwf.padding, fun h => wf_length_of_pos hwf h⟩

/-- Witness for C2 at a concrete reachable tree. -/
theorem claim_C2_witness :
    InvariantHolds sumM (push sumM (fromVec sumM [1, 2, 3]) 4) :=
  claim_C2 Nat sumM sumM_lawful _ (Reachable.push 4 (Reachable.fromVec [1, 2, 3]))

/-- Counterexample for C3: on the sum tree over `[1,1,1,1]` with the window
`0..4` and the predicate `2 ≤ v`, the prefix combines are `1,2,3,4`, so the
predicate is monotone over them (false, then true from index `1` on) and the
claim demands `Some 1`; the code's final test looks at the single leaf
`tree[leaf_offset + start]` instead of a prefix combine and returns `None`. -/
theorem claim_C3_counterexample :
    combineWindow sumM (fromVec sumM [1, 1, 1, 1]) 0 1 = 1 ∧
    combineWindow sumM (fromVec sumM [1, 1, 1, 1]) 0 2 = 2 ∧
    combineWindow sumM (fromVec sumM [1, 1, 1, 1]) 0 3 = 3 ∧
    combineWindow sumM (fromVec sumM [1, 1, 1, 1]) 0 4 = 4 ∧
    indices (fromVec sumM [1, 1, 1, 1]) ⟨RBound.included 0, RBound.excluded 4⟩
      = (0, 4) ∧
    bisectLeft sumM (fromVec sumM [1, 1, 1, 1]) ⟨RBound.included 0, RBound.excluded 4⟩
      (fun v => decide (2 ≤ v)) = none := by
  refine ⟨by decide, by decide, by decide, by decide, by decide, by decide⟩

/-- C3 (amended): for a range normalizing to a nonempty window `[s, e)` and a
predicate that on every sub-window holds of the sub-window's `combine` value
exactly when some leaf of the sub-window satisfies it (e.g. a threshold over a
max tree), `bisect_left` returns the smallest index of the window whose leaf
satisfies the predicate (`None` if there is none), and `bisect_right` the
largest such index. -/
theorem claim_C3 (M : Type) (m : MonoidOp M) (t : SegmentTree M) (r : RangeArg)
    (p : M → Bool) (s e : Nat) (hr : indices t r = (s, e)) (hse : s < e)
    (hdet : detects m t p s e) :
    bisectLeft m t r p = specFindLeft (fun k => p (leafAt m t k)) s e ∧
    bisectRight m t r p = specFindRight (fun k => p (leafAt m t k)) s e := by
  constructor
  · rw [bisectLeft, hr]
    exact bisectGoL_spec m t p (e - s) s e hse (by omega) hdet
  · rw [bisectRight, hr]
    exact bisectGoR_spec m t p (e - s) s e hse (by omega) hdet

/-- Witness for C3 (amended) on a max tree with a threshold predicate. -/
theorem claim_C3_witness :
    bisectLeft maxM (fromVec maxM [1, 5, 2]) ⟨RBound.unbounded, RBound.unbounded⟩
        (fun v => decide (2 ≤ v))
      = specFindLeft (fun k => decide (2 ≤ leafAt maxM (fromVec maxM [1, 5, 2]) k)) 0 3 ∧
    bisectRight maxM (fromVec maxM [1, 5, 2]) ⟨RBound.unbounded, RBound.unbounded⟩
        (fun v => decide (2 ≤ v))
      = specFindRight (fun k => decide (2 ≤ leafAt maxM (fromVec maxM [1, 5, 2]) k)) 0 3 :=
  claim_C3 Nat maxM (fromVec maxM [1, 5, 2]) ⟨RBound.unbounded, RBound.unbounded⟩
    (fun v => decide (2 ≤ v)) 0 3 (by decide) (by decide)
    (by unfold detects; decide)

/-- Counterexample for C4: `bisect_left` on a tree freshly created by `new()`
reads `tree[leaf_offset + start] = tree[1]` of the empty buffer, an
out-of-bounds access, i.e. a panic (modelled as `none`), instead of returning
a soft `None`. -/
theorem claim_C4_counterexample :
    bisectLeftChk sumM (new Nat) ⟨RBound.unbounded, RBound.unbounded⟩ (fun _ => true)
      = none := by
  decide

/-- C4 (amended): on every reachable tree, `update` / `update_with` (for any
index) and `combine` (for any range, descending and out-of-bounds included)
run without a panic; `bisect_left` / `bisect_right` run without a panic
provided the normalized window is nonempty (an empty window can make the final
leaf read fall outside the buffer, and a descending range underflows the loop
guard in a debug build). -/
theorem claim_C4 (M : Type) (m : MonoidOp M) (t : SegmentTree M) (hR : Reachable m t)
    (i : Nat) (f : M → M) (x : M) (r r2 : RangeArg) (p q : M → Bool)
    (hse : (indices t r2).1 < (indices t r2).2) :
    updateWithChk m t i f ≠ none ∧ updateChk m t i x ≠ none ∧
    combineChk m t r ≠ none ∧
    bisectLeftChk m t r2 p ≠ none ∧ bisectRightChk m t r2 q ≠ none := by
  have hwf := reachable_wf m hR
  obtain ⟨v1, h1⟩ := updateWithChk_isSome m t i f hwf
  obtain ⟨v2, h2⟩ := updateWithChk_isSome m t i (fun _ => x) hwf
  obtain ⟨v3, h3⟩ := combineChk_isSome m t r hwf
  obtain ⟨v4, h4⟩ := bisectLeftChk_isSome m t r2 p hwf hse
  obtain ⟨v5, h5⟩ := bisectRightChk_isSome m t r2 q hwf hse
  exact ⟨by simp [h1], by simp [updateChk, h2], by simp [h3], by simp [h4], by simp [h5]⟩

/-- Witness for C4 (amended) on a concrete tree, with a descending range for
`combine` and the full range for the bisections. -/
theorem claim_C4_witness :
    updateWithChk sumM (fromVec sumM [1, 2, 3]) 1 (fun v => v + 1) ≠ none ∧
    updateChk sumM (fromVec sumM [1, 2, 3]) 1 7 ≠ none ∧
    combineChk sumM (fromVec sumM [1, 2, 3]) ⟨RBound.included 10, RBound.excluded 0⟩
      ≠ none ∧
    bisectLeftChk sumM (fromVec sumM [1, 2, 3]) ⟨RBound.unbounded, RBound.unbounded⟩
      (fun v => decide (2 ≤ v)) ≠ none ∧
    bisectRightChk sumM (fromVec sumM [1, 2, 3]) ⟨RBound.unbounded, RBound.unbounded⟩
      (fun v => decide (4 ≤ v)) ≠ none :=
  claim_C4 Nat sumM (fromVec sumM [1, 2, 3]) (Reachable.fromVec [1, 2, 3]) 1
    (fun v => v + 1) 7 ⟨RBound.included 10, RBound.excluded 0⟩
    ⟨RBound.unbounded, RBound.unbounded⟩ (fun v => decide (2 ≤ v))
    (fun v => decide (4 ≤ v)) (by decide)

/-- C5: for an out-of-range index, `update` and `update_with` return `None`
and leave the tree state unchanged; for an in-range index they return `Some`
of the previous leaf value, that same previous value is what `f` is applied
to, and the new leaf is `f old` (respectively `x`). -/
theorem claim_C5 (M : Type) (m : MonoidOp M) (t : SegmentTree M) (hR : Reachable m t)
    (i : Nat) (x : M) (f : M → M) :
    (t.len ≤ i → updateWith m t i f = (t, none) ∧ update m t i x = (t, none)) ∧
    (i < t.len →
      (updateWith m t i f).2 = some (t.tree.getD (leafOffset t + i) m.identity) ∧
      (update m t i x).2 = some (t.tree.getD (leafOffset t + i) m.identity) ∧
      leafAt m (updateWith m t i f).1 i = f (t.tree.getD (leafOffset t + i) m.identity) ∧
      leafAt m (update m t i x).1 i = x) := by
  have hwf := reachable_wf m hR
  constructor
  · intro hle
    constructor
    · exact updateWith_neg m t i f (by omega)
    · exact updateWith_neg m t i (fun _ => x) (by omega)
  · intro hi
    obtain ⟨hwf1, hlen1, hsnd1, hlv1⟩ := updateWith_spec m t i f hwf
    obtain ⟨hwf2, hlen2, hsnd2, hlv2⟩ := updateWith_spec m t i (fun _ => x) hwf
    rw [if_pos hi] at hsnd1 hlv1 hsnd2 hlv2
    have hlv : (leaves t).length = t.len := length_leaves_wf hwf
    have hleaf : ∀ (g : M → M), leaves (updateWith m t i g).1
          = (leaves t).set i (g (t.tree.getD (leafOffset t + i) m.identity)) →
        (updateWith m t i g).1.len = t.len →
        leafAt m (updateWith m t i g).1 i
          = g (t.tree.getD (leafOffset t + i) m.identity) := by
      intro g hlvg hleng
      have hi' : i < (updateWith m t i g).1.len := by omega
      have h1 := leaves_getD (t := (updateWith m t i g).1) i m.identity hi'
      rw [leafAt, ← h1, hlvg, getD_set_self _ _ _ _ (by omega)]
    exact ⟨hsnd1, hsnd2, hleaf f hlv1 hlen1, hleaf (fun _ => x) hlv2 hlen2⟩

/-- Witness for C5 at a concrete tree, with one in-range and one out-of-range
index packaged by the two implications. -/
theorem claim_C5_witness :
    ((fromVec sumM [4, 5, 6]).len ≤ 1 →
      updateWith sumM (fromVec sumM [4, 5, 6]) 1 (fun v => v * 2)
          = (fromVec sumM [4, 5, 6], none) ∧
      update sumM (fromVec sumM [4, 5, 6]) 1 9 = (fromVec sumM [4, 5, 6], none)) ∧
    (1 < (fromVec sumM [4, 5, 6]).len →
      (updateWith sumM (fromVec sumM [4, 5, 6]) 1 (fun v => v * 2)).2
        = some ((fromVec sumM [4, 5, 6]).tree.getD
            (leafOffset (fromVec sumM [4, 5, 6]) + 1) sumM.identity) ∧
      (update sumM (fromVec sumM [4, 5, 6]) 1 9).2
        = some ((fromVec sumM [4, 5, 6]).tree.getD
            (leafOffset (fromVec sumM [4, 5, 6]) + 1) sumM.identity) ∧
      leafAt sumM (updateWith sumM (fromVec sumM [4, 5, 6]) 1 (fun v => v * 2)).1 1
        = (fromVec sumM [4, 5, 6]).tree.getD
            (leafOffset (fromVec sumM [4, 5, 6]) + 1) sumM.identity * 2 ∧
      leafAt sumM (update sumM (fromVec sumM [4, 5, 6]) 1 9).1 1 = 9) :=
  claim_C5 Nat sumM (fromVec sumM [4, 5, 6]) (Reachable.fromVec [4, 5, 6]) 1 9
    (fun v => v * 2)

/-- C6: after `update(i, x)` on a reachable tree over a lawful monoid,
`combine(i..i+1)` returns `x`, and every other in-range single-element range
returns the same value as before the update. -/
theorem claim_C6 (M : Type) (m : MonoidOp M) (hm : Lawful m) (t : SegmentTree M)
    (hR : Reachable m t) (i j : Nat) (x : M) (hi : i < t.len) (hj : j < t.len)
    (hij : j ≠ i) :
    combine m (update m t i x).1 ⟨RBound.included i, RBound.excluded (i + 1)⟩ = x ∧
    combine m (update m t i x).1 ⟨RBound.included j, RBound.excluded (j + 1)⟩
      = combine m t ⟨RBound.included j, RBound.excluded (j + 1)⟩ := by
  have hwf := reachable_wf m hR
  obtain ⟨hwf1, hlen1, _, hlv1⟩ := updateWith_spec m t i (fun _ => x) hwf
  rw [if_pos hi] at hlv1
  have hlv : (leaves t).length = t.len := length_leaves_wf hwf
  have hi1 : i < (update m t i x).1.len := by
    show i < (updateWith m t i fun _ => x).1.len
    omega
  have hj1 : j < (update m t i x).1.len := by
    show j < (updateWith m t i fun _ => x).1.len
    omega
  constructor
  · rw [combine_single m hm _ i hi1]
    show leafAt m (updateWith m t i fun _ => x).1 i = x
    have h1 := leaves_getD (t := (updateWith m t i fun _ => x).1) i m.identity hi1
    rw [leafAt, ← h1, hlv1, getD_set_self _ _ _ _ (by omega)]
  · rw [combine_single m hm _ j hj1, combine_single m hm t j hj]
    show leafAt m (updateWith m t i fun _ => x).1 j = leafAt m t j
    have h1 := leaves_getD (t := (updateWith m t i fun _ => x).1) j m.identity hj1
    have h2 := leaves_getD (t := t) j m.identity hj
    rw [leafAt, ← h1, hlv1, getD_set_ne _ _ _ (fun h => hij h.symm), leafAt, ← h2]

/-- Witness for C6 at a concrete tree and indices. -/
theorem claim_C6_witness :
    combine sumM (update sumM (fromVec sumM [1, 2, 3, 4]) 1 9).1
      ⟨RBound.included 1, RBound.excluded 2⟩ = 9 ∧
    combine sumM (update sumM (fromVec sumM [1, 2, 3, 4]) 1 9).1
      ⟨RBound.included 2, RBound.excluded 3⟩
      = combine sumM (fromVec sumM [1, 2, 3, 4])
        ⟨RBound.included 2, RBound.excluded 3⟩ :=
  claim_C6 Nat sumM sumM_lawful (fromVec sumM [1, 2, 3, 4])
    (Reachable.fromVec [1, 2, 3, 4]) 1 2 9 (by decide) (by decide) (by decide)

/-- C7: building in bulk from a sequence and building by pushing the same
elements in order are observationally equivalent: every `combine` agrees (for
a nonempty input the two states are in fact identical; for the empty input
both sides return the identity on every range). -/
theorem claim_C7 (M : Type) (m : MonoidOp M) (v : List M) (r : RangeArg) :
    combine m (v.foldl (fun s x => push m s x) (new M)) r = combine m (fromVec m v) r := by
  rcases eq_or_ne v [] with hv | hv
  · subst hv
    rw [List.foldl_nil, combine_len_zero m (new M) rfl r,
      combine_len_zero m (fromVec m []) (fromVec_spec m []).2.1 r]
  · rw [pushAll_eq_fromVec m v hv]

/-- C8: iterating a tree built from an input sequence and then mutated by any
sequence of updates and pushes yields exactly the current logical leaf values
in order (`len` many, no padding, no internal nodes), matching the plain-list
model of the same operations. -/
theorem claim_C8 (M : Type) (m : MonoidOp M) (v : List M) (ops : List (TreeOp M)) :
    intoIterList (applyOps m (fromVec m v) ops) = modelOps v ops ∧
    (applyOps m (fromVec m v) ops).len = (modelOps v ops).length := by
  obtain ⟨hwf0, hlen0, hlv0⟩ := fromVec_spec m v
  obtain ⟨hwf, hlen, hlv⟩ := applyOps_spec m ops (fromVec m v) hwf0
  rw [hlv0] at hlen hlv
  exact ⟨hlv, hlen⟩

/-- Counterexample for C9: `capacity(0) = 2 ≤ 4 = capacity(2)`, yet
`resize_upto(0)` on a two-element tree truncates the buffer from four cells to
two (`Vec::resize_with` shrinks), so the array is not left as it was. -/
theorem claim_C9_counterexample :
    capacity 0 ≤ capacity (fromVec sumM [1, 2]).len ∧
    (resizeUpto sumM (fromVec sumM [1, 2]) 0).tree ≠ (fromVec sumM [1, 2]).tree := by
  constructor
  · decide
  · decide

/-- C9 (amended): when the requested capacity equals the current one
(`capacity(new_len) = capacity(current_len)`), `resize_upto` only updates
`len` to `max(new_len, current_len)` and leaves the buffer exactly as it was;
when the requested capacity is strictly smaller the buffer is truncated. -/
theorem claim_C9 (M : Type) (m : MonoidOp M) (t : SegmentTree M) (L : Nat)
    (hlen : t.tree.length = capacity t.len) (hcap : capacity L = capacity t.len) :
    (resizeUpto m t L).len = max L t.len ∧ (resizeUpto m t L).tree = t.tree := by
  have hov : overCapacity t L = false := by
    have : ¬ capacity t.len < capacity L := by omega
    simpa [overCapacity] using this
  rw [resizeUpto_eq_not_over m t L hov]
  refine ⟨rfl, ?_⟩
  show resizeWith t.tree (capacity L) m.identity = t.tree
  rw [resizeWith, if_pos (by omega), hcap, ← hlen, List.take_length]

/-- Witness for C9 (amended) at a concrete tree. -/
theorem claim_C9_witness :
    (resizeUpto sumM (fromVec sumM [1]) 0).len = max 0 (fromVec sumM [1]).len ∧
    (resizeUpto sumM (fromVec sumM [1]) 0).tree = (fromVec sumM [1]).tree :=
  claim_C9 Nat sumM (fromVec sumM [1]) 0 (by decide) (by decide)

/-- C10: `update` and `update_with` (for any index, in range or not) never
change `len` or the buffer size, and every buffer cell off the path from the
touched leaf cell `leaf_offset + i` to the root cell `1` keeps its exact
previous value (the unused cell `0`, which is off every path, included). -/
theorem claim_C10 (M : Type) (m : MonoidOp M) (t : SegmentTree M) (i : Nat)
    (f : M → M) (x : M) (c : Nat) (hc : ¬ PathNode (leafOffset t + i) c) :
    (updateWith m t i f).1.len = t.len ∧
    (updateWith m t i f).1.tree.length = t.tree.length ∧
    (updateWith m t i f).1.tree.getD c m.identity = t.tree.getD c m.identity ∧
    (update m t i x).1.len = t.len ∧
    (update m t i x).1.tree.length = t.tree.length ∧
    (update m t i x).1.tree.getD c m.identity = t.tree.getD c m.identity := by
  obtain ⟨h1, h2, h3⟩ := updateWith_frame m t i f c hc
  obtain ⟨h4, h5, h6⟩ := updateWith_frame m t i (fun _ => x) c hc
  exact ⟨h1, h2, h3, h4, h5, h6⟩

/-- Witness for C10: updating leaf `1` of a four-leaf tree (buffer cell `5`,
path `5 → 2 → 1`) leaves cell `6` untouched. -/
theorem claim_C10_witness :
    (updateWith sumM (fromVec sumM [1, 2, 3, 4]) 1 (fun v => v + 5)).1.len
      = (fromVec sumM [1, 2, 3, 4]).len ∧
    (updateWith sumM (fromVec sumM [1, 2, 3, 4]) 1 (fun v => v + 5)).1.tree.length
      = (fromVec sumM [1, 2, 3, 4]).tree.length ∧
    (updateWith sumM (fromVec sumM [1, 2, 3, 4]) 1 (fun v => v + 5)).1.tree.getD 6
        sumM.identity
      = (fromVec sumM [1, 2, 3, 4]).tree.getD 6 sumM.identity ∧
    (update sumM (fromVec sumM [1, 2, 3, 4]) 1 9).1.len
      = (fromVec sumM [1, 2, 3, 4]).len ∧
    (update sumM (fromVec sumM [1, 2, 3, 4]) 1 9).1.tree.length
      = (fromVec sumM [1, 2, 3, 4]).tree.length ∧
    (update sumM (fromVec sumM [1, 2, 3, 4]) 1 9).1.tree.getD 6 sumM.identity
      = (fromVec sumM [1, 2, 3, 4]).tree.getD 6 sumM.identity :=
  claim_C10 Nat sumM (fromVec sumM [1, 2, 3, 4]) 1 (fun v => v + 5) 9 6
    (by unfold PathNode; decide)
